import Mathlib

/-!
Verification development for the `linear_array` repository
(`src/linear_alpha.py`): a cycle-level simulation of a linear systolic
array computing spectral correlation density.  The Python source is
shallowly embedded below: `queue.Queue` objects become Lean lists
(front = next element to `get`), complex samples become `ℂ`, the global
`cycle` counter is threaded through state, and every Python runtime event
that can abort or hang an operation (blocking `Queue.get`/`Queue.put`,
`IndexError`, `ZeroDivisionError`, the recursion blow-up of `rFFT` on an
empty list, `%` by zero) is made explicit through `Except PyEvent`.
-/

namespace LinearAlpha

open scoped BigOperators

/-- Abnormal outcomes of the Python code: a blocking `Queue.get`/`Queue.put`
(which in this single-threaded program means hanging forever), an
`IndexError`, the `ValueError` raised by the reference FFTs on bad lengths,
an `AttributeError` (reading from a `None` input), `ZeroDivisionError`
(`% 0`), and the unbounded recursion of `rFFT` on an empty list. -/
inductive PyEvent where
  | blocked
  | indexError
  | valueError
  | attributeError
  | zeroDivision
  | recursionLimit
deriving DecidableEq

/-- Whether an `Except` outcome is a normal return. -/
def eIsOk {α : Type} : Except PyEvent α → Bool
  | .ok _ => true
  | .error _ => false

/-- Normal return value of an `Except` outcome, if any. -/
def eToOption {α : Type} : Except PyEvent α → Option α
  | .ok a => some a
  | .error _ => none

/-- Python `l[i]` for a nonnegative index: `IndexError` when out of range. -/
def pyListGet {α : Type} (l : List α) (i : ℕ) : Except PyEvent α :=
  match l.get? i with
  | some a => .ok a
  | none => .error .indexError

/-- Normalisation of one (possibly negative) slice bound, as Python's slice
semantics clamp it: a negative bound counts from the end (clamped below by
0), a nonnegative bound is clamped above by the length. -/
def pyBound (len : ℕ) (i : ℤ) : ℕ :=
  if i < 0 then ((len : ℤ) + i).toNat else min i.toNat len

/-- Python slice `l[a:b]` with possibly negative bounds. -/
def pySlice {α : Type} (l : List α) (a b : ℤ) : List α :=
  (l.drop (pyBound l.length a)).take (pyBound l.length b - pyBound l.length a)

/-- The expanded real/imaginary cross-term complex product from
`complex_mult`: `real_part + image_part * 1j` with
`real_part = x.re*y.re - x.im*y.im` and `image_part = x.im*y.re + x.re*y.im`
(source lines 68-70). -/
def pymul (x y : ℂ) : ℂ :=
  ((x.re * y.re - x.im * y.im : ℝ) : ℂ)
    + ((x.im * y.re + x.re * y.im : ℝ) : ℂ) * Complex.I

/-- The conjugate as the source spells it out: `z.real - z.imag * 1j`
(source line 156). -/
def pyconj (z : ℂ) : ℂ := ((z.re : ℝ) : ℂ) - ((z.im : ℝ) : ℂ) * Complex.I

/-- Embedding of `complex_mult(x, y)` (source lines 63-74): elementwise
product via the expanded cross-term formula, looping over `range(len(x))`
(so an `IndexError` occurs when `y` is shorter than `x`), incrementing the
cycle counter once per element.  Returns the product list together with the
updated cycle counter. -/
def complex_mult (x y : List ℂ) (cyc : ℕ) : Except PyEvent (List ℂ × ℕ) :=
  if x.length ≤ y.length then
    .ok ((List.range x.length).map fun i => pymul (x.getD i 0) (y.getD i 0),
         cyc + x.length)
  else .error .indexError

/-- Embedding of `getTwiddle(NFFT)` (source lines 77-83):
`W[k] = exp(-2πi k / NFFT)`. -/
noncomputable def getTwiddle (n : ℕ) : List ℂ :=
  (List.range n).map fun k : ℕ =>
    Complex.exp ((-2) * (Real.pi : ℂ) * Complex.I * (k : ℂ) / (n : ℂ))

/-- Embedding of the reference `DFT(x)` (source lines 11-17):
`out[k] = Σ_j exp(-2πi k j / N) · x[j]`. -/
noncomputable def DFT (x : List ℂ) : List ℂ :=
  (List.range x.length).map fun k : ℕ =>
    ∑ j ∈ Finset.range x.length,
      Complex.exp ((-2) * (Real.pi : ℂ) * Complex.I * (k : ℂ) * (j : ℂ)
          / (x.length : ℂ))
        * x.getD j 0

/-- Embedding of the pipeline's `rFFT(x)` (source lines 86-117).  Base case
`n == 1` returns the input unchanged; otherwise the even- and odd-indexed
halves (`X[k] = x[2k]`, `Y[k] = x[2k+1]` for `k < n // 2`) are transformed
recursively and combined as `F[k] = X[k % m] + W[k]·Y[k % m]`, with one
cycle per combined output element (returned as the second component).
On an empty list the Python function recurses forever (`n == 0` never
reaches the base case); that divergence is the `recursionLimit` event. -/
noncomputable def rFFT (x : List ℂ) : Except PyEvent (List ℂ × ℕ) :=
  if x.length = 0 then .error .recursionLimit
  else if x.length = 1 then .ok (x, 0)
  else
    let n := x.length
    let m := n / 2
    match rFFT ((List.range m).map fun k => x.getD (2 * k) 0),
          rFFT ((List.range m).map fun k => x.getD (2 * k + 1) 0) with
    | .ok (X, cx), .ok (Y, cy) =>
        .ok ((List.range n).map fun k =>
               X.getD (k % m) 0 + (getTwiddle n).getD k 0 * Y.getD (k % m) 0,
             cx + cy + n)
    | .error e, _ => .error e
    | .ok _, .error e => .error e
termination_by x.length
decreasing_by
  · simpa using by omega
  · simpa using by omega

/-- Value component of `rFFT` (empty on the divergent empty input). -/
noncomputable def rFFTv (x : List ℂ) : List ℂ :=
  match rFFT x with
  | .ok (l, _) => l
  | .error _ => []

/-- Elements of `l` at even positions, Python's `l[::2]`. -/
def everyOther {α : Type} : List α → List α
  | [] => []
  | [a] => [a]
  | a :: _ :: t => a :: everyOther t

theorem everyOther_length {α : Type} :
    ∀ l : List α, (everyOther l).length = (l.length + 1) / 2
  | [] => by simp [everyOther]
  | [_] => by simp [everyOther]
  | _ :: _ :: t => by
      simp only [everyOther, List.length_cons, everyOther_length t]
      omega

/-- Embedding of the reference recursive Cooley–Tukey `FFT(x)` (source
lines 20-32): raises `ValueError` when the current length is odd (note this
includes length 1), falls back to `DFT` for lengths `≤ 2`, otherwise splits
into even/odd-indexed halves (`x[::2]`, `x[1::2]`) and combines with the
twiddle factor halves `factor[:N//2]` and `factor[N//2:]`. -/
noncomputable def FFTerr (x : List ℂ) : Except PyEvent (List ℂ) :=
  if x.length % 2 = 1 then .error .valueError
  else if x.length ≤ 2 then .ok (DFT x)
  else
    match FFTerr (everyOther x), FFTerr (everyOther (x.drop 1)) with
    | .ok Xe, .ok Xo =>
        let n := x.length
        .ok (((List.range (n / 2)).map fun k =>
                Xe.getD k 0 + (getTwiddle n).getD k 0 * Xo.getD k 0)
             ++ ((List.range (n / 2)).map fun k =>
                Xe.getD k 0 + (getTwiddle n).getD (n / 2 + k) 0 * Xo.getD k 0))
    | .error e, _ => .error e
    | .ok _, .error e => .error e
termination_by x.length
decreasing_by
  · simp only [everyOther_length]
    omega
  · simp only [everyOther_length, List.length_drop]
    omega

/-- A natural number is a power of two. -/
def isPowTwo : ℕ → Bool
  | 0 => false
  | 1 => true
  | n + 2 => decide ((n + 2) % 2 = 0) && isPowTwo ((n + 2) / 2)

/-- Length-only skeleton of `FFTerr`'s error behaviour: raise when the
length is odd, accept lengths `≤ 2`, otherwise recurse on the half. -/
def FFT_raises (n : ℕ) : Bool :=
  if n % 2 = 1 then true
  else if n ≤ 2 then false
  else FFT_raises (n / 2)
termination_by n
decreasing_by omega

/-- The length guard of `FFT_vectorized` (source line 38), `np.log2(N) % 1
> 0`, modelled over the float semantics: for `N ≥ 1` it fires exactly when
`N` is not a power of two; for `N = 0` NumPy produces `-inf`, whose `% 1`
is NaN, and `NaN > 0` is false, so the guard does not fire. -/
def FFT_vectorized_raises (n : ℕ) : Bool :=
  decide (n ≠ 0) && !isPowTwo n

/-- Embedding of `scipy.fftpack.fftshift` on a 1-D sequence:
`np.roll(x, n // 2)`, i.e. the last `n - n//2` elements followed by the
first `n - n//2`. -/
def fftshift {α : Type} (l : List α) : List α :=
  l.drop (l.length - l.length / 2) ++ l.take (l.length - l.length / 2)

/-- A `put` on a `queue.Queue(maxsize = cap)`: blocks when the queue is
full (`cap = 0` means unbounded). -/
def bput {α : Type} (cap : ℕ) (q : List α) (a : α) : Except PyEvent (List α) :=
  if 0 < cap ∧ cap ≤ q.length then .error .blocked else .ok (q ++ [a])

/-- The merge loop of the non-terminal `compute` branch (source lines
181-186): for `i` in `range count`, set
`alpha[i] := max (max alpha[i] bottom[i]) prev[i]` in place (the two `if`
comparisons), raising `IndexError` when any of the three sequences is too
short. -/
def mergeLoop : ℕ → List ℝ → List ℝ → List ℝ → Except PyEvent (List ℝ)
  | 0, a, _, _ => .ok a
  | Nat.succ i, a, b, p =>
    match mergeLoop i a b p with
    | .error e => .error e
    | .ok a' =>
      if i < a'.length ∧ i < b.length ∧ i < p.length then
        .ok (a'.set i (max (max (a'.getD i 0) (b.getD i 0)) (p.getD i 0)))
      else .error .indexError

/-- The merge loop of the terminal (`last_cell`) `compute` branch (source
lines 190-193): `alpha_top[i] := max alpha_top[i] prev[i]` in place. -/
def merge2Loop : ℕ → List ℝ → List ℝ → Except PyEvent (List ℝ)
  | 0, a, _ => .ok a
  | Nat.succ i, a, p =>
    match merge2Loop i a p with
    | .error e => .error e
    | .ok a' =>
      if i < a'.length ∧ i < p.length then
        .ok (a'.set i (max (a'.getD i 0) (p.getD i 0)))
      else .error .indexError

/-- The externally-sourced branch of `cell_read` (source lines 149-157):
for each of `count` slots pop one sample from the external queue `q`
(substituting the integer `0` when the queue is exhausted), `put` it into
the raw register `d1` and its conjugate into the conjugate register `d2`
(both `Queue(maxsize = cap)`), and increment the cycle counter. -/
def readFifoLoop :
    ℕ → List ℂ → List ℂ → List ℂ → ℕ → ℕ →
      Except PyEvent (List ℂ × List ℂ × List ℂ × ℕ)
  | 0, q, d1, d2, _, cyc => .ok (q, d1, d2, cyc)
  | Nat.succ cnt, q, d1, d2, cap, cyc =>
    let vq : ℂ × List ℂ := match q with | [] => (0, []) | a :: t => (a, t)
    match bput cap d1 vq.1 with
    | .error e => .error e
    | .ok d1' =>
      match bput cap d2 (pyconj vq.1) with
      | .error e => .error e
      | .ok d2' => readFifoLoop cnt vq.2 d1' d2' cap (cyc + 1)

/-- The predecessor-sourced branch of `cell_read` (source lines 158-163):
for each of `count` slots, `get` one sample from the predecessor's shift
register (a blocking call: an empty shift register hangs the program, it
does not raise) and `put` it into the raw register only. -/
def readPredLoop :
    ℕ → List ℂ → List ℂ → ℕ → ℕ → Except PyEvent (List ℂ × List ℂ × ℕ)
  | 0, q, d1, _, cyc => .ok (q, d1, cyc)
  | Nat.succ cnt, q, d1, cap, cyc =>
    match q with
    | [] => .error .blocked
    | a :: t =>
      match bput cap d1 a with
      | .error e => .error e
      | .ok d1' => readPredLoop cnt t d1' cap (cyc + 1)

/-- The loop of `shift` (source lines 196-201): move `count` samples from
the raw register into the cell's own shift register, one cycle each
(`get` blocks when the raw register runs dry). -/
def shiftLoop :
    ℕ → List ℂ → List ℂ → ℕ → Except PyEvent (List ℂ × List ℂ × ℕ)
  | 0, d1, s, cyc => .ok (d1, s, cyc)
  | Nat.succ cnt, d1, s, cyc =>
    match d1 with
    | [] => .error .blocked
    | a :: t => shiftLoop cnt t (s ++ [a]) (cyc + 1)

/-- The loop of `clear_shift` (source lines 203-206): discard `count`
entries from the shift register and from the conjugate register (blocking
`get` calls, no cycle accounting). -/
def clearLoop :
    ℕ → List ℂ → List ℂ → Except PyEvent (List ℂ × List ℂ)
  | 0, s, d2 => .ok (s, d2)
  | Nat.succ cnt, s, d2 =>
    match s with
    | [] => .error .blocked
    | _ :: st =>
      match d2 with
      | [] => .error .blocked
      | _ :: d2t => clearLoop cnt st d2t

/-- A cell's input source: `None` (fresh cell), a reference to the external
input queue `input[sig][idx]`, or a reference to the cell at list position
`idx` (whose shift register will be read). -/
inductive CellInput where
  | nil
  | fifo (sig idx : ℕ)
  | pred (idx : ℕ)
deriving DecidableEq

/-- State of one `LinearArrayCell` (source lines 120-135).  The scratch
variables `single_in` / `single_out` and the never-used queues
`cell_partial_result` / `cell_output` are omitted. -/
structure Cell where
  cell_size : ℕ
  cell_index : ℕ
  cell_input : CellInput
  signal_index : ℕ
  data1 : List ℂ
  data2 : List ℂ
  alpha : List ℝ
  alpha_top : List ℝ
  alpha_bottom : List ℝ
  cell_shift : List ℂ

/-- A freshly constructed cell of register capacity `c`. -/
def initCell (c : ℕ) : Cell :=
  ⟨c, 0, CellInput.nil, 0, [], [], [], [], [], []⟩

instance : Inhabited Cell := ⟨initCell 0⟩

/-- Cell-level `clear_shift` (source lines 203-206). -/
def clearCell (c : Cell) : Except PyEvent Cell :=
  match clearLoop c.cell_size c.cell_shift c.data2 with
  | .error e => .error e
  | .ok (s', d2') => .ok { c with cell_shift := s', data2 := d2' }

/-- Cell-level `connect` (source lines 137-145).  When
`iterations % array_size == 0` the cell is (re)pointed at its external
queue `input[signal_index][cell_index]` (after a `clear_shift` whenever
`signal_index > 0`) and `signal_index` is bumped; otherwise it is pointed
at `cells[cell_index - 1]`, which by Python's negative-index semantics is
the LAST cell of the array when `cell_index = 0`.  `numCells` is
`len(array.cells)`; an empty array would make `cells[-1]` raise, and
`array_size = 0` would make `%` raise `ZeroDivisionError`. -/
def cellConnect (c : Cell) (cell_index numCells : ℕ)
    (input : List (List (List ℂ))) (array_size iterations : ℕ) :
    Except PyEvent Cell :=
  if array_size = 0 then .error .zeroDivision
  else
    let c0 := { c with cell_index := cell_index }
    if iterations % array_size = 0 then
      match (if 0 < c0.signal_index then clearCell c0 else .ok c0) with
      | .error e => .error e
      | .ok c1 =>
        if c1.signal_index < input.length
            ∧ cell_index < (input.getD c1.signal_index []).length then
          .ok { c1 with
                cell_input := CellInput.fifo c1.signal_index cell_index,
                signal_index := c1.signal_index + 1 }
        else .error .indexError
    else
      if numCells = 0 then .error .indexError
      else
        .ok { c0 with
              cell_input :=
                CellInput.pred
                  (if cell_index = 0 then numCells - 1 else cell_index - 1) }

/-- State of the `LinearArray` (source lines 209-221) plus the global cycle
counter.  `num_cells` is a genuine Python integer: the run loop decrements
it below zero when `total_iterations` exceeds `array_size + 1`. -/
structure ArrState where
  array_size : ℕ
  cell_size : ℕ
  input : List (List (List ℂ))
  iterations : ℕ
  cells : List Cell
  result : List (List ℝ)
  num_cells : ℤ
  cycle : ℕ

/-- The freshly constructed array (source lines 210-221). -/
def initState (n c : ℕ) (inp : List (List (List ℂ))) : ArrState :=
  ⟨n, c, inp, 0, List.replicate n (initCell c), [], (n : ℤ), 0⟩

/-- The `connect` phase: `cell.connect(cell_index, self, array_size,
iterations)` for each cell in order (source lines 223-225). -/
def connectLoop : List ℕ → ArrState → Except PyEvent ArrState
  | [], st => .ok st
  | i :: rest, st =>
    match pyListGet st.cells i with
    | .error e => .error e
    | .ok c =>
      match cellConnect c i st.cells.length st.input st.array_size
              st.iterations with
      | .error e => .error e
      | .ok c' => connectLoop rest { st with cells := st.cells.set i c' }

/-- Array-level `connect` over every cell. -/
def connectAll (st : ArrState) : Except PyEvent ArrState :=
  connectLoop (List.range st.cells.length) st

/-- One cell's `cell_read` (source lines 147-163), acting on the whole
array state because a read destructively pops either the shared external
queue or the predecessor cell's shift register. -/
def readCellAt (st : ArrState) (i : ℕ) : Except PyEvent ArrState :=
  match pyListGet st.cells i with
  | .error e => .error e
  | .ok c =>
    match c.cell_input with
    | CellInput.nil => .error .attributeError
    | CellInput.fifo sig idx =>
      let q := (st.input.getD sig []).getD idx []
      match readFifoLoop c.cell_size q c.data1 c.data2 c.cell_size
              st.cycle with
      | .error e => .error e
      | .ok (q', d1', d2', cyc') =>
        .ok { st with
              input := st.input.set sig ((st.input.getD sig []).set idx q'),
              cells := st.cells.set i { c with data1 := d1', data2 := d2' },
              cycle := cyc' }
    | CellInput.pred j =>
      match pyListGet st.cells j with
      | .error e => .error e
      | .ok cj =>
        match readPredLoop c.cell_size cj.cell_shift c.data1 c.cell_size
                st.cycle with
        | .error e => .error e
        | .ok (q', d1', cyc') =>
          let st1 :=
            { st with
              cells := st.cells.set j { cj with cell_shift := q' },
              cycle := cyc' }
          match pyListGet st1.cells i with
          | .error e => .error e
          | .ok c2 =>
            .ok { st1 with cells := st1.cells.set i { c2 with data1 := d1' } }

/-- The `read` phase over every cell in order (source lines 227-229). -/
def readLoop : List ℕ → ArrState → Except PyEvent ArrState
  | [], st => .ok st
  | i :: rest, st =>
    match readCellAt st i with
    | .error e => .error e
    | .ok st' => readLoop rest st'

/-- Array-level `read` over every cell. -/
def readAll (st : ArrState) : Except PyEvent ArrState :=
  readLoop (List.range st.cells.length) st

/-- The zero predecessor-alpha vector handed to cell 0 (source line 237). -/
def zeros8 : List ℝ := List.replicate 8 0

/-- The core of `fftAbs` inside `compute` (source lines 166-174):
correlate the raw register with the conjugate register, run the pipeline
FFT, `fftshift`, crop to the central 16 bins by the Python slice
`[len // 2 - 8 : len // 2 + 8]`, take elementwise magnitudes, and add 16
cycles for the shift-and-magnitude stage. -/
noncomputable def fftAbsOf (c : Cell) (cyc : ℕ) :
    Except PyEvent (List ℝ × ℕ) :=
  match complex_mult c.data1 c.data2 cyc with
  | .error e => .error e
  | .ok (cm, cyc1) =>
    match rFFT cm with
    | .error e => .error e
    | .ok (fr, dc) =>
      let fs := pySlice (fftshift fr)
        (((fr.length / 2 : ℕ) : ℤ) - 8) (((fr.length / 2 : ℕ) : ℤ) + 8)
      .ok (fs.map Complex.abs, cyc1 + dc + 16)

/-- Cell-level `compute` (source lines 165-194).  The Python
`total_iterations` parameter is never read and is omitted.  The numpy
aliasing of the source (`self.alpha = self.alpha_top` followed by in-place
updates, with `alpha_top` then rebound to a fresh slice) is rendered
functionally: the merged `alpha` starts from the previous `alpha_top`
values, and `alpha_top` is overwritten with the upper half of the current
`fft_abs`. -/
noncomputable def cellCompute (c : Cell) (last_cell : Bool)
    (prev_alpha : List ℝ) (iterations cyc : ℕ) :
    Except PyEvent (Cell × ℕ) :=
  match fftAbsOf c cyc with
  | .error e => .error e
  | .ok (fa, cyc1) =>
    let half := fa.length / 2
    if iterations = 0 then
      .ok ({ c with alpha_top := fa.drop half }, cyc1)
    else
      if last_cell = false then
        match mergeLoop half c.alpha_top (fa.take half) prev_alpha with
        | .error e => .error e
        | .ok a' =>
          .ok ({ c with
                 alpha := a',
                 alpha_bottom := fa.take half,
                 alpha_top := fa.drop half },
               cyc1 + 2 * half)
      else
        match merge2Loop half c.alpha_top prev_alpha with
        | .error e => .error e
        | .ok t' =>
          .ok ({ c with alpha_top := t', alpha := t' }, cyc1 + half)

/-- One step of the `last_cell` flag of the compute loop (source lines
232-235): the flag is set when the loop index reaches `num_cells - 1` and
is never reset within the loop. -/
def computeFlag (k : ℤ) (i : ℕ) (prev : Bool) : Bool :=
  prev || decide ((i : ℤ) = k - 1)

/-- The compute loop over the currently active cells (source lines
231-239), threading the `last_cell` flag; cell 0 receives the zero alpha
vector, cell `i > 0` receives `cells[i-1].alpha` as already updated earlier
in this same loop. -/
noncomputable def computeCells : List ℕ → Bool → ArrState →
    Except PyEvent ArrState
  | [], _, st => .ok st
  | i :: rest, lastFlag, st =>
    let flag := computeFlag st.num_cells i lastFlag
    match pyListGet st.cells i with
    | .error e => .error e
    | .ok c =>
      match (if i = 0 then Except.ok zeros8
             else Except.map Cell.alpha (pyListGet st.cells (i - 1))) with
      | .error e => .error e
      | .ok prev =>
        match cellCompute c flag prev st.iterations st.cycle with
        | .error e => .error e
        | .ok (c', cyc') =>
          computeCells rest flag
            { st with cells := st.cells.set i c', cycle := cyc' }

/-- Array-level `compute` (source lines 231-241): loop over
`range(num_cells)` (empty for a nonpositive count) and then decrement the
active-cell count whenever `iterations > 0`. -/
noncomputable def computeAll (st : ArrState) : Except PyEvent ArrState :=
  match computeCells (List.range st.num_cells.toNat) false st with
  | .error e => .error e
  | .ok st' =>
    .ok { st' with
          num_cells :=
            if 0 < st'.iterations then st'.num_cells - 1 else st'.num_cells }

/-- The `shift` phase over every cell in order (source lines 243-245):
each cell drains its raw register into its own shift register. -/
def shiftCellsLoop : List ℕ → ArrState → Except PyEvent ArrState
  | [], st => .ok st
  | i :: rest, st =>
    match pyListGet st.cells i with
    | .error e => .error e
    | .ok c =>
      match shiftLoop c.cell_size c.data1 c.cell_shift st.cycle with
      | .error e => .error e
      | .ok (d1', s', cyc') =>
        shiftCellsLoop rest
          { st with
            cells := st.cells.set i { c with data1 := d1', cell_shift := s' },
            cycle := cyc' }

/-- Array-level `shift` over every cell. -/
def shiftAll (st : ArrState) : Except PyEvent ArrState :=
  shiftCellsLoop (List.range st.cells.length) st

/-- One iteration of the `run` loop (source lines 248-253):
connect-all, read-all, compute-all, shift-all, then bump the iteration
counter. -/
noncomputable def stepRound (st : ArrState) : Except PyEvent ArrState :=
  match connectAll st with
  | .error e => .error e
  | .ok s1 =>
    match readAll s1 with
    | .error e => .error e
    | .ok s2 =>
      match computeAll s2 with
      | .error e => .error e
      | .ok s3 =>
        match shiftAll s3 with
        | .error e => .error e
        | .ok s4 => .ok { s4 with iterations := s4.iterations + 1 }

/-- The array state after `T` iterations of the run loop, starting from a
freshly constructed `LinearArray(n, c, inp)`. -/
noncomputable def loopState (n c : ℕ) (inp : List (List (List ℂ))) :
    ℕ → Except PyEvent ArrState
  | 0 => .ok (initState n c inp)
  | T + 1 =>
    match loopState n c inp T with
    | .error e => .error e
    | .ok st => stepRound st

/-- The epilogue of `run` (source lines 254-258): append cell 0's
`alpha_top`, pop cell 0, then append every remaining cell's `alpha`. -/
def finalizeRun (st : ArrState) : Except PyEvent (List (List ℝ)) :=
  match pyListGet st.cells 0 with
  | .error e => .error e
  | .ok c0 =>
    .ok ((st.result ++ [c0.alpha_top]) ++ (st.cells.drop 1).map Cell.alpha)

/-- Full embedding of `LinearArray(n, c, inp).run(T)`. -/
noncomputable def runArray (n c : ℕ) (inp : List (List (List ℂ)))
    (T : ℕ) : Except PyEvent (List (List ℝ)) :=
  match loopState n c inp T with
  | .error e => .error e
  | .ok st => finalizeRun st

/-- The result sequence of a run, when the run returns normally. -/
noncomputable def runResult (n c : ℕ) (inp : List (List (List ℂ)))
    (T : ℕ) : Option (List (List ℝ)) :=
  eToOption (runArray n c inp T)

/-- The cell list after `T` iterations of the run loop (empty if the run
aborted). -/
noncomputable def loopCells (n c : ℕ) (inp : List (List (List ℂ)))
    (T : ℕ) : List Cell :=
  match loopState n c inp T with
  | .ok st => st.cells
  | .error _ => []

/-- The active-cell count after `T` iterations of the run loop (junk value
`-1000` if the run aborted). -/
noncomputable def numCellsAfter (n c : ℕ) (inp : List (List (List ℂ)))
    (T : ℕ) : ℤ :=
  match loopState n c inp T with
  | .ok st => st.num_cells
  | .error _ => -1000

/-- Frequency bin `bin` of cell `i`'s merged alpha vector after `T`
iterations of the run loop. -/
noncomputable def alphaAfter (n c : ℕ) (inp : List (List (List ℂ)))
    (T i bin : ℕ) : ℝ :=
  (((loopCells n c inp T).getD i default).alpha).getD bin 0

/-! ### Generic list helpers -/

theorem getD_range_map {α : Type} (f : ℕ → α) (n i : ℕ) (d : α)
    (hi : i < n) : ((List.range n).map f).getD i d = f i := by
  rw [List.getD_eq_getElem?_getD, List.getElem?_map, List.getElem?_range hi]
  rfl

theorem getD_set_self {α : Type} (l : List α) (i : ℕ) (v d : α)
    (h : i < l.length) : (l.set i v).getD i d = v := by
  rw [List.getD_eq_getElem?_getD, List.getElem?_set_self]
  · rfl
  · exact h

theorem getD_set_ne {α : Type} (l : List α) (i j : ℕ) (v d : α)
    (h : i ≠ j) : (l.set i v).getD j d = l.getD j d := by
  rw [List.getD_eq_getElem?_getD, List.getElem?_set_ne h,
    ← List.getD_eq_getElem?_getD]

/-! ### Claim C1: the input source selected for cell 0

`LinearArrayCell.connect` (source line 145) sets
`self.cell_input = array.cells[self.cell_index - 1]`.  For cell 0 the
Python index `-1` wraps around to the LAST cell of the array, so whenever
`iterations % array_size != 0` cell 0 reads the last cell's shift
register: the array is a ring.  The claim that cell 0 is only ever
externally sourced is therefore false. -/

/-- Claim C1, counterexample: connecting cell 0 of a 2-cell array at
iteration 1 (so `1 % 2 ≠ 0`) selects the shift register of cell 1 — a
predecessor-cell source, not an external-queue source. -/
theorem c1_counterexample :
    (eToOption (cellConnect (initCell 4) 0 2 [[[]]] 2 1)).map Cell.cell_input
        = some (CellInput.pred 1)
      ∧ ∀ sig idx : ℕ,
          some (CellInput.pred 1) ≠ some (CellInput.fifo sig idx) := by
  constructor
  · rfl
  · intro sig idx h
    exact CellInput.noConfusion (Option.some.inj h)

/-- Claim C1, amended: whenever `iterations % array_size ≠ 0` (and the
array is nonempty, with a nonzero `array_size` so that `%` is defined),
`connect` points cell 0 at the cell with list index `numCells - 1`, i.e.
the LAST cell of the array (Python's `cells[-1]`), whose shift register
the next `read` will consume; cell 0 is externally sourced only in the
`iterations % array_size == 0` rounds. -/
theorem c1_amended (c : Cell) (numCells : ℕ)
    (input : List (List (List ℂ))) (array_size iterations : ℕ)
    (hsz : 0 < array_size) (hmod : iterations % array_size ≠ 0)
    (hn : 0 < numCells) :
    cellConnect c 0 numCells input array_size iterations
      = .ok { c with cell_index := 0,
                     cell_input := CellInput.pred (numCells - 1) } := by
  unfold cellConnect
  rw [if_neg (by omega), if_neg hmod, if_neg (by omega)]
  simp

/-- Witness for `c1_amended` at a concrete connect call. -/
theorem c1_amended_witness :
    0 < 3 ∧ 2 % 3 ≠ 0 ∧ 0 < 4
      ∧ cellConnect (initCell 8) 0 4 [] 3 2
          = .ok { initCell 8 with cell_index := 0,
                                  cell_input := CellInput.pred 3 } :=
  ⟨by decide, by decide, by decide,
    c1_amended (initCell 8) 4 [] 3 2 (by decide) (by decide) (by decide)⟩

/-! ### Claim C9: `complex_mult` -/

theorem pymul_eq_mul (a b : ℂ) : pymul a b = a * b := by
  apply Complex.ext
  · simp [pymul, Complex.mul_re]
  · simp [pymul, Complex.mul_im]
    ring

/-- Claim C9: for equal-length sequences, `complex_mult` returns the
elementwise complex product (the expanded cross-term formula agrees with
ideal complex multiplication) and advances the cycle counter by exactly
`len(x)`. -/
theorem c9_complex_mult (x y : List ℂ) (cyc : ℕ)
    (hlen : x.length = y.length) (i : ℕ) (hi : i < x.length) :
    ∃ r, complex_mult x y cyc = .ok r
      ∧ r.1.getD i 0 = x.getD i 0 * y.getD i 0
      ∧ r.2 = cyc + x.length := by
  have hok : complex_mult x y cyc
      = .ok ((List.range x.length).map
               fun j => pymul (x.getD j 0) (y.getD j 0),
             cyc + x.length) := by
    rw [complex_mult, if_pos (le_of_eq hlen)]
  refine ⟨_, hok, ?_, rfl⟩
  rw [getD_range_map _ _ _ _ hi]
  exact pymul_eq_mul _ _

/-- Witness for `c9_complex_mult` on concrete one-element inputs. -/
theorem c9_complex_mult_witness :
    ([Complex.I].length = [(2 : ℂ)].length) ∧ 0 < [Complex.I].length
      ∧ ∃ r, complex_mult [Complex.I] [(2 : ℂ)] 5 = .ok r
          ∧ r.1.getD 0 0 = [Complex.I].getD 0 0 * [(2 : ℂ)].getD 0 0
          ∧ r.2 = 5 + [Complex.I].length :=
  ⟨rfl, by decide, c9_complex_mult [Complex.I] [(2 : ℂ)] 5 rfl 0 (by decide)⟩

/-! ### Claim C6: externally-sourced reads zero-fill and never raise -/

/-- Claim C6: an externally-sourced read pushes exactly `count` samples
into the raw register no matter how many samples remain in the external
queue — each slot pops one sample if available and substitutes `0` once
the queue is exhausted — pushes the conjugate of the same sample into the
conjugate register for every slot, and advances the cycle counter by
exactly `count`.  (The capacity hypotheses say the bounded registers have
room, which the run orchestration guarantees; queue exhaustion itself is
never an error.) -/
theorem c6_read_external (count : ℕ) :
    ∀ (q d1 d2 : List ℂ) (cap cyc : ℕ),
      (cap = 0 ∨ d1.length + count ≤ cap) →
      (cap = 0 ∨ d2.length + count ≤ cap) →
      readFifoLoop count q d1 d2 cap cyc
        = .ok (q.drop count,
               d1 ++ (q.take count ++ List.replicate (count - q.length) 0),
               d2 ++ (q.take count
                        ++ List.replicate (count - q.length) 0).map pyconj,
               cyc + count) := by
  induction count with
  | zero => intro q d1 d2 cap cyc _ _; simp [readFifoLoop]
  | succ cnt ih =>
    intro q d1 d2 cap cyc h1 h2
    match q with
    | [] =>
      rw [readFifoLoop]
      rw [show bput cap d1 (0 : ℂ) = .ok (d1 ++ [0]) from
            by rw [bput, if_neg (by omega)]]
      rw [show bput cap d2 (pyconj 0) = .ok (d2 ++ [pyconj 0]) from
            by rw [bput, if_neg (by omega)]]
      dsimp only
      rw [ih [] (d1 ++ [0]) (d2 ++ [pyconj 0]) cap (cyc + 1)
            (by simp; omega) (by simp; omega)]
      simp [List.replicate_succ]
      omega
    | a :: t =>
      rw [readFifoLoop]
      rw [show bput cap d1 a = .ok (d1 ++ [a]) from
            by rw [bput, if_neg (by omega)]]
      rw [show bput cap d2 (pyconj a) = .ok (d2 ++ [pyconj a]) from
            by rw [bput, if_neg (by omega)]]
      dsimp only
      rw [ih t (d1 ++ [a]) (d2 ++ [pyconj a]) cap (cyc + 1)
            (by simp; omega) (by simp; omega)]
      simp
      omega

/-- Witness for `c6_read_external`: a 2-slot read from a 1-sample queue
zero-fills the second slot. -/
theorem c6_read_external_witness :
    ((2 : ℕ) = 0 ∨ ([] : List ℂ).length + 2 ≤ 2)
      ∧ ((2 : ℕ) = 0 ∨ ([] : List ℂ).length + 2 ≤ 2)
      ∧ readFifoLoop 2 [Complex.I] [] [] 2 7
          = .ok ([Complex.I].drop 2,
                 [] ++ ([Complex.I].take 2
                          ++ List.replicate (2 - [Complex.I].length) 0),
                 [] ++ ([Complex.I].take 2
                          ++ List.replicate (2 - [Complex.I].length) 0).map
                            pyconj,
                 7 + 2) :=
  ⟨by simp, by simp,
    c6_read_external 2 [Complex.I] [] [] 2 7 (by simp) (by simp)⟩

/-! ### Claim C7: predecessor shift-register underflow

The spec requires a fast `BufferUnderflow` failure.  The code instead
calls the blocking `Queue.get()` (source line 160): in this
single-threaded program an underflowing predecessor read hangs forever —
it neither raises an error nor returns default values.  The embedding
records that hang as the `blocked` outcome. -/

/-- Claim C7: a predecessor-sourced read whose shift register holds fewer
than `count` samples never returns — `Queue.get` blocks (the `blocked`
outcome), instead of failing fast with a buffer-underflow error as the
spec demands. -/
theorem c7_pred_underflow_blocks (count : ℕ) :
    ∀ (q d1 : List ℂ) (cap cyc : ℕ), q.length < count →
      readPredLoop count q d1 cap cyc = .error .blocked := by
  induction count with
  | zero => intro q d1 cap cyc h; omega
  | succ cnt ih =>
    intro q d1 cap cyc h
    match q with
    | [] => rw [readPredLoop]
    | a :: t =>
      rw [readPredLoop]
      cases hb : bput cap d1 a with
      | error e =>
        dsimp only
        have he : e = PyEvent.blocked := by
          rw [bput] at hb
          split at hb
          · exact (Except.error.inj hb).symm
          · cases hb
        rw [he]
      | ok d1' =>
        dsimp only
        exact ih t d1' cap (cyc + 1) (by simpa using h)

/-- Witness for `c7_pred_underflow_blocks`: a 1-sample read from an empty
predecessor shift register blocks. -/
theorem c7_pred_underflow_blocks_witness :
    ([] : List ℂ).length < 1
      ∧ readPredLoop 1 [] [] 4 0 = .error .blocked :=
  ⟨by decide, c7_pred_underflow_blocks 1 [] [] 4 0 (by decide)⟩

/-! ### Claim C8: length validation of the reference transforms

`FFT` raises whenever the current length is odd — including length 1,
which IS a power of two (`2^0`), so the claim "raises iff not a power of
two" fails at singletons.  (At length 0 it also returns the empty DFT
without raising, though 0 is not a power of two.) -/

theorem FFTerr_isOk_eq :
    ∀ (n : ℕ) (x : List ℂ), x.length = n →
      eIsOk (FFTerr x) = !FFT_raises n := by
  intro n
  induction n using Nat.strong_induction_on with
  | _ n ih =>
    intro x hx
    subst hx
    rw [FFTerr, FFT_raises]
    by_cases h1 : x.length % 2 = 1
    · simp [h1, eIsOk]
    · by_cases h2 : x.length ≤ 2
      · simp [h1, h2, eIsOk]
      · rw [if_neg h1, if_neg h2, if_neg h1, if_neg h2]
        have hev : (everyOther x).length = x.length / 2 := by
          rw [everyOther_length]; omega
        have hod : (everyOther (x.drop 1)).length = x.length / 2 := by
          rw [everyOther_length, List.length_drop]; omega
        have hlt : x.length / 2 < x.length := by omega
        have he := ih (x.length / 2) hlt (everyOther x) hev
        have ho := ih (x.length / 2) hlt (everyOther (x.drop 1)) hod
        rcases hE : FFTerr (everyOther x) with eE | XE
        · rw [hE] at he
          simpa [eIsOk] using he
        · rcases hO : FFTerr (everyOther (x.drop 1)) with eO | XO
          · rw [hO] at ho
            simpa [eIsOk] using ho
          · rw [hE] at he
            simpa [eIsOk] using he

theorem isPowTwo_even (m : ℕ) (hm : (m + 2) % 2 = 0) :
    isPowTwo (m + 2) = isPowTwo ((m + 2) / 2) := by
  rw [isPowTwo, decide_eq_true hm, Bool.true_and]

theorem FFT_raises_iff :
    ∀ n : ℕ, FFT_raises n = true ↔
      (n = 1 ∨ (n ≠ 0 ∧ isPowTwo n = false)) := by
  intro n
  induction n using Nat.strong_induction_on with
  | _ n ih =>
    rw [FFT_raises]
    by_cases h1 : n % 2 = 1
    · rw [if_pos h1]
      constructor
      · intro _
        rcases Nat.lt_or_ge n 2 with h | h
        · left; omega
        · right
          refine ⟨by omega, ?_⟩
          obtain ⟨m, rfl⟩ : ∃ m, n = m + 2 := ⟨n - 2, by omega⟩
          rw [isPowTwo]
          rw [decide_eq_false (by omega)]
          rfl
      · intro _; rfl
    · by_cases h2 : n ≤ 2
      · rw [if_neg h1, if_pos h2]
        have : n = 0 ∨ n = 2 := by omega
        rcases this with rfl | rfl
        · simp
        · simp [isPowTwo]
      · rw [if_neg h1, if_neg h2, ih (n / 2) (by omega)]
        have hp : isPowTwo n = isPowTwo (n / 2) := by
          obtain ⟨m, rfl⟩ : ∃ m, n = m + 2 := ⟨n - 2, by omega⟩
          exact isPowTwo_even m (by omega)
        constructor
        · rintro (h | ⟨h0, hp2⟩)
          · omega
          · exact Or.inr ⟨by omega, by rw [hp]; exact hp2⟩
        · rintro (h | ⟨h0, hp2⟩)
          · omega
          · exact Or.inr ⟨by omega, by rw [← hp]; exact hp2⟩

theorem rFFT_ok_length (x l : List ℂ) (d : ℕ)
    (h : rFFT x = .ok (l, d)) : l.length = x.length := by
  rw [rFFT] at h
  by_cases h0 : x.length = 0
  · rw [if_pos h0] at h; cases h
  · rw [if_neg h0] at h
    by_cases h1 : x.length = 1
    · rw [if_pos h1] at h
      cases h
      exact rfl
    · rw [if_neg h1] at h
      dsimp only at h
      rcases hE : rFFT ((List.range (x.length / 2)).map
          fun k => x.getD (2 * k) 0) with eE | pE
      · rw [hE] at h; cases h
      · rcases hO : rFFT ((List.range (x.length / 2)).map
            fun k => x.getD (2 * k + 1) 0) with eO | pO
        · rw [hE, hO] at h
          rcases pE with ⟨XE, cE⟩
          cases h
        · rw [hE, hO] at h
          rcases pE with ⟨XE, cE⟩
          rcases pO with ⟨XO, cO⟩
          rcases h with ⟨⟩
          simp

theorem rFFT_ok_of_ne_nil :
    ∀ (n : ℕ) (x : List ℂ), x.length = n → x ≠ [] →
      ∃ p, rFFT x = .ok p := by
  intro n
  induction n using Nat.strong_induction_on with
  | _ n ih =>
    intro x hx hne
    have h0 : x.length ≠ 0 := by
      simpa [List.length_eq_zero] using hne
    by_cases h1 : x.length = 1
    · exact ⟨(x, 0), by rw [rFFT, if_neg h0, if_pos h1]⟩
    · have h2 : 2 ≤ x.length := by omega
      have hm : 1 ≤ x.length / 2 := by omega
      have hmlt : x.length / 2 < n := by omega
      obtain ⟨pE, hE⟩ :=
        ih (x.length / 2) hmlt
          ((List.range (x.length / 2)).map fun k => x.getD (2 * k) 0)
          (by simp)
          (by
            intro hc
            have := congrArg List.length hc
            simp at this
            omega)
      obtain ⟨pO, hO⟩ :=
        ih (x.length / 2) hmlt
          ((List.range (x.length / 2)).map fun k => x.getD (2 * k + 1) 0)
          (by simp)
          (by
            intro hc
            have := congrArg List.length hc
            simp at this
            omega)
      obtain ⟨XE, cE⟩ := pE
      obtain ⟨XO, cO⟩ := pO
      refine ⟨((List.range x.length).map fun k =>
          XE.getD (k % (x.length / 2)) 0
            + (getTwiddle x.length).getD k 0
                * XO.getD (k % (x.length / 2)) 0,
        cE + cO + x.length), ?_⟩
      rw [rFFT, if_neg h0, if_neg h1]
      dsimp only
      rw [hE, hO]

/-- Claim C8, counterexample: a singleton input has power-of-two length
(`1 = 2^0`), yet the reference recursive `FFT` raises its length
`ValueError` on it (its guard fires on every odd length, including 1). -/
theorem c8_counterexample :
    FFTerr [(1 : ℂ)] = .error .valueError
      ∧ isPowTwo [(1 : ℂ)].length = true
      ∧ [(1 : ℂ)].length = 2 ^ 0 := by
  refine ⟨?_, by simp [isPowTwo], rfl⟩
  rw [FFTerr]
  rfl

/-- Claim C8, amended: the recursive reference `FFT` raises its length
error exactly when the input is nonempty and its length is NOT a power of
two with positive exponent — so it deviates from "iff not a power of two"
at length 1 (raises although `1 = 2^0`) and at length 0 (returns the empty
transform although 0 is not a power of two); the vectorized FFT's guard
fires exactly on nonzero non-power-of-two lengths; and the pipeline `rFFT`
performs no length validation at all — it returns normally on every
nonempty input (on the empty input it recurses forever, which is not a
length error either). -/
theorem c8_amended (x : List ℂ) :
    (eIsOk (FFTerr x) = false
        ↔ (x.length = 1 ∨ (x.length ≠ 0 ∧ isPowTwo x.length = false)))
      ∧ (FFT_vectorized_raises x.length = true
          ↔ (x.length ≠ 0 ∧ isPowTwo x.length = false))
      ∧ (x = [] ∨ ∃ p, rFFT x = .ok p) := by
  refine ⟨?_, ?_, ?_⟩
  · rw [FFTerr_isOk_eq x.length x rfl]
    rw [show ∀ b : Bool, ((!b) = false ↔ b = true) from by decide]
    exact FFT_raises_iff x.length
  · simp [FFT_vectorized_raises]
  · by_cases hne : x = []
    · exact Or.inl hne
    · exact Or.inr (rFFT_ok_of_ne_nil x.length x rfl hne)

/-! ### Structural invariants of the run loop -/

theorem connectLoop_pres :
    ∀ (l : List ℕ) (st st' : ArrState), connectLoop l st = .ok st' →
      st'.cells.length = st.cells.length ∧ st'.num_cells = st.num_cells
        ∧ st'.iterations = st.iterations
        ∧ st'.array_size = st.array_size ∧ st'.cell_size = st.cell_size
        ∧ st'.result = st.result := by
  intro l
  induction l with
  | nil =>
    intro st st' h
    cases h
    exact ⟨rfl, rfl, rfl, rfl, rfl, rfl⟩
  | cons i rest ih =>
    intro st st' h
    rw [connectLoop] at h
    rcases hg : pyListGet st.cells i with e | c
    · rw [hg] at h
      exact absurd h (by simp)
    · rw [hg] at h
      dsimp only at h
      rcases hc : cellConnect c i st.cells.length st.input st.array_size
          st.iterations with e | c'
      · rw [hc] at h
        exact absurd h (by simp)
      · rw [hc] at h
        dsimp only at h
        obtain ⟨a1, a2, a3, a4, a5, a6⟩ := ih _ _ h
        simp only [List.length_set] at a1
        exact ⟨a1, a2, a3, a4, a5, a6⟩

theorem readCellAt_pres (st : ArrState) (i : ℕ) (st' : ArrState)
    (h : readCellAt st i = .ok st') :
    st'.cells.length = st.cells.length ∧ st'.num_cells = st.num_cells
      ∧ st'.iterations = st.iterations
      ∧ st'.array_size = st.array_size ∧ st'.cell_size = st.cell_size
      ∧ st'.result = st.result := by
  rw [readCellAt] at h
  rcases hg : pyListGet st.cells i with e | c
  · rw [hg] at h
    exact absurd h (by simp)
  · rw [hg] at h
    dsimp only at h
    rcases hin : c.cell_input with _ | ⟨sig, idx⟩ | j
    · rw [hin] at h
      exact absurd h (by simp)
    · rw [hin] at h
      dsimp only at h
      rcases hr : readFifoLoop c.cell_size
          ((st.input.getD sig []).getD idx []) c.data1 c.data2 c.cell_size
          st.cycle with e | q4
      · rw [hr] at h
        exact absurd h (by simp)
      · obtain ⟨q', d1', d2', cyc'⟩ := q4
        rw [hr] at h
        dsimp only at h
        cases h
        simp
    · rw [hin] at h
      dsimp only at h
      rcases hj : pyListGet st.cells j with e | cj
      · rw [hj] at h
        exact absurd h (by simp)
      · rw [hj] at h
        dsimp only at h
        rcases hr : readPredLoop c.cell_size cj.cell_shift c.data1
            c.cell_size st.cycle with e | q3
        · rw [hr] at h
          exact absurd h (by simp)
        · obtain ⟨q', d1', cyc'⟩ := q3
          rw [hr] at h
          dsimp only at h
          rcases h2 : pyListGet
              (st.cells.set j { cj with cell_shift := q' }) i with e | c2
          · rw [h2] at h
            exact absurd h (by simp)
          · rw [h2] at h
            dsimp only at h
            cases h
            simp

theorem readLoop_pres :
    ∀ (l : List ℕ) (st st' : ArrState), readLoop l st = .ok st' →
      st'.cells.length = st.cells.length ∧ st'.num_cells = st.num_cells
        ∧ st'.iterations = st.iterations
        ∧ st'.array_size = st.array_size ∧ st'.cell_size = st.cell_size
        ∧ st'.result = st.result := by
  intro l
  induction l with
  | nil =>
    intro st st' h
    cases h
    exact ⟨rfl, rfl, rfl, rfl, rfl, rfl⟩
  | cons i rest ih =>
    intro st st' h
    rw [readLoop] at h
    rcases hg : readCellAt st i with e | stm
    · rw [hg] at h
      exact absurd h (by simp)
    · rw [hg] at h
      dsimp only at h
      obtain ⟨a1, a2, a3, a4, a5, a6⟩ := ih _ _ h
      obtain ⟨b1, b2, b3, b4, b5, b6⟩ := readCellAt_pres st i stm hg
      exact ⟨a1.trans b1, a2.trans b2, a3.trans b3, a4.trans b4,
             a5.trans b5, a6.trans b6⟩

theorem computeCells_pres :
    ∀ (l : List ℕ) (b : Bool) (st st' : ArrState),
      computeCells l b st = .ok st' →
      st'.cells.length = st.cells.length ∧ st'.num_cells = st.num_cells
        ∧ st'.iterations = st.iterations
        ∧ st'.array_size = st.array_size ∧ st'.cell_size = st.cell_size
        ∧ st'.result = st.result := by
  intro l
  induction l with
  | nil =>
    intro b st st' h
    cases h
    exact ⟨rfl, rfl, rfl, rfl, rfl, rfl⟩
  | cons i rest ih =>
    intro b st st' h
    rw [computeCells] at h
    rcases hg : pyListGet st.cells i with e | c
    · rw [hg] at h
      exact absurd h (by simp)
    · rw [hg] at h
      dsimp only at h
      rcases hp : (if i = 0 then Except.ok zeros8
          else Except.map Cell.alpha (pyListGet st.cells (i - 1)))
          with e | prev
      · rw [hp] at h
        exact absurd h (by simp)
      · rw [hp] at h
        dsimp only at h
        rcases hc : cellCompute c (computeFlag st.num_cells i b) prev
            st.iterations st.cycle with e | p
        · rw [hc] at h
          exact absurd h (by simp)
        · obtain ⟨c', cyc'⟩ := p
          rw [hc] at h
          dsimp only at h
          obtain ⟨a1, a2, a3, a4, a5, a6⟩ := ih _ _ _ h
          simp only [List.length_set] at a1
          exact ⟨a1, a2, a3, a4, a5, a6⟩

theorem computeAll_pres (st st' : ArrState)
    (h : computeAll st = .ok st') :
    st'.cells.length = st.cells.length
      ∧ st'.num_cells
          = (if 0 < st.iterations then st.num_cells - 1 else st.num_cells)
      ∧ st'.iterations = st.iterations
      ∧ st'.array_size = st.array_size ∧ st'.cell_size = st.cell_size
      ∧ st'.result = st.result := by
  rw [computeAll] at h
  rcases hg : computeCells (List.range st.num_cells.toNat) false st
      with e | stm
  · rw [hg] at h
    exact absurd h (by simp)
  · rw [hg] at h
    dsimp only at h
    obtain ⟨a1, a2, a3, a4, a5, a6⟩ := computeCells_pres _ _ _ _ hg
    cases h
    exact ⟨a1, by rw [a2, a3], a3, a4, a5, a6⟩

theorem shiftCellsLoop_pres :
    ∀ (l : List ℕ) (st st' : ArrState), shiftCellsLoop l st = .ok st' →
      st'.cells.length = st.cells.length ∧ st'.num_cells = st.num_cells
        ∧ st'.iterations = st.iterations
        ∧ st'.array_size = st.array_size ∧ st'.cell_size = st.cell_size
        ∧ st'.result = st.result := by
  intro l
  induction l with
  | nil =>
    intro st st' h
    cases h
    exact ⟨rfl, rfl, rfl, rfl, rfl, rfl⟩
  | cons i rest ih =>
    intro st st' h
    rw [shiftCellsLoop] at h
    rcases hg : pyListGet st.cells i with e | c
    · rw [hg] at h
      exact absurd h (by simp)
    · rw [hg] at h
      dsimp only at h
      rcases hs : shiftLoop c.cell_size c.data1 c.cell_shift st.cycle
          with e | p
      · rw [hs] at h
        exact absurd h (by simp)
      · obtain ⟨d1', s', cyc'⟩ := p
        rw [hs] at h
        dsimp only at h
        obtain ⟨a1, a2, a3, a4, a5, a6⟩ := ih _ _ h
        simp only [List.length_set] at a1
        exact ⟨a1, a2, a3, a4, a5, a6⟩

theorem stepRound_pres (st st' : ArrState)
    (h : stepRound st = .ok st') :
    st'.cells.length = st.cells.length
      ∧ st'.num_cells
          = (if 0 < st.iterations then st.num_cells - 1 else st.num_cells)
      ∧ st'.iterations = st.iterations + 1
      ∧ st'.array_size = st.array_size ∧ st'.cell_size = st.cell_size
      ∧ st'.result = st.result := by
  rw [stepRound] at h
  rcases h1 : connectAll st with e | s1
  · rw [h1] at h
    exact absurd h (by simp)
  · rw [h1] at h
    dsimp only at h
    rcases h2 : readAll s1 with e | s2
    · rw [h2] at h
      exact absurd h (by simp)
    · rw [h2] at h
      dsimp only at h
      rcases h3 : computeAll s2 with e | s3
      · rw [h3] at h
        exact absurd h (by simp)
      · rw [h3] at h
        dsimp only at h
        rcases h4 : shiftAll s3 with e | s4
        · rw [h4] at h
          exact absurd h (by simp)
        · rw [h4] at h
          dsimp only at h
          cases h
          obtain ⟨a1, a2, a3, a4, a5, a6⟩ := connectLoop_pres _ _ _ h1
          obtain ⟨b1, b2, b3, b4, b5, b6⟩ := readLoop_pres _ _ _ h2
          obtain ⟨c1, c2, c3, c4, c5, c6⟩ := computeAll_pres _ _ h3
          obtain ⟨d1, d2, d3, d4, d5, d6⟩ := shiftCellsLoop_pres _ _ _ h4
          refine ⟨?_, ?_, ?_, ?_, ?_, ?_⟩
          · simp only [d1, c1, b1, a1]
          · rw [d2, c2, b3, a3, b2, a2]
          · simp only [d3, c3, b3, a3]
          · simp only [d4, c4, b4, a4]
          · simp only [d5, c5, b5, a5]
          · simp only [d6, c6, b6, a6]

/-- Trajectory of the loop state: sizes, the iteration counter, the empty
result accumulator, and the active-cell count
`num_cells = n - max 0 (T - 1)`. -/
theorem loopState_pres (n c : ℕ) (inp : List (List (List ℂ))) :
    ∀ (T : ℕ) (st : ArrState), loopState n c inp T = .ok st →
      st.cells.length = n ∧ st.array_size = n ∧ st.cell_size = c
        ∧ st.iterations = T ∧ st.result = []
        ∧ st.num_cells = (n : ℤ) - max 0 ((T : ℤ) - 1) := by
  intro T
  induction T with
  | zero =>
    intro st h
    cases h
    refine ⟨by simp [initState], rfl, rfl, rfl, rfl, by simp [initState]⟩
  | succ T ih =>
    intro st h
    rw [loopState] at h
    rcases hT : loopState n c inp T with e | stT
    · rw [hT] at h
      exact absurd h (by simp)
    · rw [hT] at h
      dsimp only at h
      obtain ⟨a1, a2, a3, a4, a5, a6⟩ := ih stT hT
      obtain ⟨b1, b2, b3, b4, b5, b6⟩ := stepRound_pres stT st h
      refine ⟨b1.trans a1, b4.trans a2, b5.trans a3, by rw [b3, a4],
              b6.trans a5, ?_⟩
      rw [b2, a4, a6]
      by_cases hT0 : 0 < T
      · rw [if_pos hT0]
        push_cast
        omega
      · rw [if_neg hT0]
        have hz : T = 0 := by omega
        subst hz
        push_cast
        omega

theorem getD_of_getQ {α : Type} {l : List α} {i : ℕ} {a : α} (d : α)
    (h : l.get? i = some a) : l.getD i d = a := by
  rw [List.getD_eq_getElem?_getD, ← List.get?_eq_getElem?, h]
  rfl

theorem pyListGet_ok {α : Type} {l : List α} {i : ℕ} {a : α}
    (h : pyListGet l i = .ok a) : l.get? i = some a := by
  rw [pyListGet] at h
  rcases hq : l.get? i with _ | b
  · rw [hq] at h
    cases h
  · rw [hq] at h
    cases h
    rfl

/-! ### Claim C4: structure of the run result -/

/-- Claim C4: whenever `run(T)` (with `T ≥ 1`) returns normally, its result
sequence is exactly cell 0's `alpha_top` followed by the `alpha` of every
remaining cell in list order (oldest pipeline stage first), and it has
exactly `array_size` entries. -/
theorem c4_run_structure (n c : ℕ) (inp : List (List (List ℂ))) (T : ℕ)
    (_hT : 1 ≤ T) (hok : eIsOk (runArray n c inp T) = true) :
    (loopCells n c inp T).length = n
      ∧ runResult n c inp T
          = some (((loopCells n c inp T).getD 0 default).alpha_top
              :: ((loopCells n c inp T).drop 1).map Cell.alpha)
      ∧ (((loopCells n c inp T).getD 0 default).alpha_top
          :: ((loopCells n c inp T).drop 1).map Cell.alpha).length = n := by
  rcases hL : loopState n c inp T with e | st
  · rw [runArray, hL] at hok
    exact absurd hok (by simp [eIsOk])
  · have hcells : loopCells n c inp T = st.cells := by rw [loopCells, hL]
    rw [runArray, hL] at hok
    dsimp only at hok
    rw [finalizeRun] at hok
    rcases hg : pyListGet st.cells 0 with e | c0
    · rw [hg] at hok
      exact absurd hok (by simp [eIsOk])
    · obtain ⟨p1, p2, p3, p4, p5, p6⟩ := loopState_pres n c inp T st hL
      have hget := pyListGet_ok hg
      have hpos : 0 < st.cells.length := (List.get?_eq_some.mp hget).1
      have hc0 : st.cells.getD 0 default = c0 := getD_of_getQ _ hget
      refine ⟨by rw [hcells, p1], ?_, ?_⟩
      · rw [runResult, runArray, hL]
        dsimp only
        rw [finalizeRun, hg]
        dsimp only [eToOption]
        rw [p5, hcells, hc0]
        simp
      · rw [hcells, hc0]
        simp only [List.length_cons, List.length_map, List.length_drop]
        omega

/-- Witness for `c4_run_structure` on a concrete successful run
(one cell, one register, one iteration, one zero sample). -/
theorem c4_run_structure_witness :
    1 ≤ 1 ∧ eIsOk (runArray 1 1 [[[(0 : ℂ)]]] 1) = true
      ∧ ((loopCells 1 1 [[[(0 : ℂ)]]] 1).length = 1
          ∧ runResult 1 1 [[[(0 : ℂ)]]] 1
              = some (((loopCells 1 1 [[[(0 : ℂ)]]] 1).getD 0
                        default).alpha_top
                  :: ((loopCells 1 1 [[[(0 : ℂ)]]] 1).drop 1).map Cell.alpha)
          ∧ (((loopCells 1 1 [[[(0 : ℂ)]]] 1).getD 0 default).alpha_top
              :: ((loopCells 1 1 [[[(0 : ℂ)]]] 1).drop 1).map
                    Cell.alpha).length = 1) :=
  ⟨le_refl 1,
    by
      simp [runArray, finalizeRun, loopState, stepRound, connectAll,
        connectLoop, pyListGet, cellConnect, initState, initCell, readAll,
        readLoop, readCellAt, readFifoLoop, bput, pyconj, computeAll,
        computeCells, computeFlag, cellCompute, fftAbsOf, complex_mult,
        pymul, rFFT, pySlice, pyBound, fftshift, zeros8, shiftAll,
        shiftCellsLoop, shiftLoop, eIsOk, Except.map, List.range_succ],
    c4_run_structure 1 1 [[[(0 : ℂ)]]] 1 (le_refl 1)
      (by
        simp [runArray, finalizeRun, loopState, stepRound, connectAll,
          connectLoop, pyListGet, cellConnect, initState, initCell, readAll,
          readLoop, readCellAt, readFifoLoop, bput, pyconj, computeAll,
          computeCells, computeFlag, cellCompute, fftAbsOf, complex_mult,
          pymul, rFFT, pySlice, pyBound, fftshift, zeros8, shiftAll,
          shiftCellsLoop, shiftLoop, eIsOk, Except.map, List.range_succ])⟩

/-! ### Claim C5: the active-cell count over a run -/

/-- Claim C5: the active-cell count starts at `array_size`
(`numCellsAfter 0`), and entering iteration `r ≥ 1` (i.e. after `r`
completed iterations — the first iteration's compute-all did not decrement,
every later one did) it equals `array_size - (r - 1)`; the compute loop of
that iteration runs over `range(num_cells)`, i.e. over exactly
`array_size - (r - 1)` cells, and its `last_cell` flag fires exactly at
loop index `array_size - (r - 1) - 1 = array_size - r` (conjunct three:
`computeFlag` with the active count of iteration `r` turns the flag on
exactly at that index). -/
theorem c5_active_count (n c : ℕ) (inp : List (List (List ℂ))) (r : ℕ)
    (h1 : 1 ≤ r) (hok : eIsOk (loopState n c inp r) = true) :
    numCellsAfter n c inp 0 = (n : ℤ)
      ∧ numCellsAfter n c inp r = (n : ℤ) - ((r : ℤ) - 1)
      ∧ ∀ (i : ℕ) (b : Bool),
          (computeFlag ((n : ℤ) - ((r : ℤ) - 1)) i b = true
            ↔ (b = true ∨ (i : ℤ) = (n : ℤ) - (r : ℤ))) := by
  refine ⟨by simp [numCellsAfter, loopState, initState], ?_, ?_⟩
  · rcases hL : loopState n c inp r with e | st
    · rw [hL] at hok
      exact absurd hok (by simp [eIsOk])
    · obtain ⟨p1, p2, p3, p4, p5, p6⟩ := loopState_pres n c inp r st hL
      rw [numCellsAfter, hL]
      dsimp only
      rw [p6]
      omega
  · intro i b
    have harith : (n : ℤ) - ((r : ℤ) - 1) - 1 = (n : ℤ) - (r : ℤ) := by ring
    simp [computeFlag, harith]

/-- Witness for `c5_active_count` on a concrete successful run. -/
theorem c5_active_count_witness :
    1 ≤ 1 ∧ eIsOk (loopState 1 1 [[[(0 : ℂ)]]] 1) = true
      ∧ (numCellsAfter 1 1 [[[(0 : ℂ)]]] 0 = (1 : ℤ)
          ∧ numCellsAfter 1 1 [[[(0 : ℂ)]]] 1 = (1 : ℤ) - ((1 : ℤ) - 1)
          ∧ ∀ (i : ℕ) (b : Bool),
              (computeFlag ((1 : ℤ) - ((1 : ℤ) - 1)) i b = true
                ↔ (b = true ∨ (i : ℤ) = (1 : ℤ) - (1 : ℤ)))) :=
  ⟨le_refl 1,
    by
      simp [loopState, stepRound, connectAll,
        connectLoop, pyListGet, cellConnect, initState, initCell, readAll,
        readLoop, readCellAt, readFifoLoop, bput, pyconj, computeAll,
        computeCells, computeFlag, cellCompute, fftAbsOf, complex_mult,
        pymul, rFFT, pySlice, pyBound, fftshift, zeros8, shiftAll,
        shiftCellsLoop, shiftLoop, eIsOk, Except.map, List.range_succ],
    c5_active_count 1 1 [[[(0 : ℂ)]]] 1 (le_refl 1)
      (by
        simp [loopState, stepRound, connectAll,
          connectLoop, pyListGet, cellConnect, initState, initCell, readAll,
          readLoop, readCellAt, readFifoLoop, bput, pyconj, computeAll,
          computeCells, computeFlag, cellCompute, fftAbsOf, complex_mult,
          pymul, rFFT, pySlice, pyBound, fftshift, zeros8, shiftAll,
          shiftCellsLoop, shiftLoop, eIsOk, Except.map, List.range_succ])⟩

/-! ### Claim C10, counterexample

With `total_iterations = 1` only the `iterations == 0` branch of `compute`
ever runs, so no cell's `alpha` is ever assigned: every cell except cell 0
contributes its initial `alpha = []` (zero entries, not 8) to the result.
(With `cell_size < 16` even `alpha_top` has fewer than 8 entries.) -/

/-- Claim C10, counterexample: the run `LinearArray(2, 1, [[[0],[0]]])
.run(1)` returns normally with two result entries, and its second Alpha
Vector has 0 entries — not 8 as the claim demands of every run. -/
theorem c10_counterexample :
    ((runResult 2 1 [[[(0 : ℂ)], [(0 : ℂ)]]] 1).getD []).length = 2
      ∧ (((runResult 2 1 [[[(0 : ℂ)], [(0 : ℂ)]]] 1).getD []).getD 1
            [1]).length = 0
      ∧ (0 : ℕ) ≠ 8 := by
  refine ⟨?_, ?_, by decide⟩ <;>
  simp [runResult, eToOption, runArray, finalizeRun, loopState, stepRound,
    connectAll, connectLoop, pyListGet, cellConnect, initState, initCell,
    readAll, readLoop, readCellAt, readFifoLoop, bput, pyconj, computeAll,
    computeCells, computeFlag, cellCompute, fftAbsOf, complex_mult, pymul,
    rFFT, pySlice, pyBound, fftshift, zeros8, shiftAll, shiftCellsLoop,
    shiftLoop, eIsOk, Except.map, List.range_succ]

/-! ### Claim C2: the max-hold merge across iterations

In the non-terminal merge branch, `alpha` is re-seeded every iteration
from the PREVIOUS iteration's raw `alpha_top` snapshot (source line 179),
not from the previously merged `alpha`; `alpha_top` itself is then
overwritten with the current raw spectrum half (line 188).  The merge is
therefore a max-hold only WITHIN one compute call, and the merged value
can drop between consecutive iterations. -/

/-- The `fft_abs` sequence a compute call derives from a cell's registers
(empty if the derivation aborts). -/
noncomputable def faOf (c : Cell) (cyc : ℕ) : List ℝ :=
  match fftAbsOf c cyc with
  | .ok (fa, _) => fa
  | .error _ => []

theorem mergeLoop_spec :
    ∀ (m : ℕ) (a b p a' : List ℝ), mergeLoop m a b p = .ok a' →
      a'.length = a.length
        ∧ (∀ i, m ≤ i → a'.getD i 0 = a.getD i 0)
        ∧ (∀ i, i < m →
            a'.getD i 0 = max (max (a.getD i 0) (b.getD i 0)) (p.getD i 0)) := by
  intro m
  induction m with
  | zero =>
    intro a b p a' h
    cases h
    exact ⟨rfl, fun i _ => rfl, fun i hi => absurd hi (by omega)⟩
  | succ m ih =>
    intro a b p a' h
    rw [mergeLoop] at h
    rcases h0 : mergeLoop m a b p with e | a0
    · rw [h0] at h
      exact absurd h (by simp)
    · rw [h0] at h
      dsimp only at h
      by_cases hc : m < a0.length ∧ m < b.length ∧ m < p.length
      · rw [if_pos hc] at h
        cases h
        obtain ⟨l0, hge, hlt⟩ := ih a b p a0 h0
        have hm0 : a0.getD m 0 = a.getD m 0 := hge m (le_refl m)
        refine ⟨by simp [l0], ?_, ?_⟩
        · intro i hi
          rw [getD_set_ne _ _ _ _ _ (by omega)]
          exact hge i (by omega)
        · intro i hi
          rcases Nat.lt_or_ge i m with him | him
          · rw [getD_set_ne _ _ _ _ _ (by omega)]
            exact hlt i him
          · have hieq : i = m := by omega
            subst hieq
            rw [getD_set_self _ _ _ _ hc.1, hm0]
      · rw [if_neg hc] at h
        exact absurd h (by simp)

/-- Claim C2, counterexample: in the 3-cell, 2-register run seeded with
the single nonzero sample `1` in cell 0's queue, cell 0's merged
`alpha[0]` equals `1` after iteration 1 (two completed rounds) and `0`
after iteration 2 (three completed rounds) of the same `run(3)`: the
merged per-bin value DECREASES across iterations, refuting the max-hold
monotonicity claim. -/
theorem c2_counterexample :
    alphaAfter 3 2 [[[(1 : ℂ), 0], [0, 0], [0, 0]]] 2 0 0 = 1
      ∧ alphaAfter 3 2 [[[(1 : ℂ), 0], [0, 0], [0, 0]]] 3 0 0 = 0
      ∧ (0 : ℝ) < 1 := by
  refine ⟨?_, ?_, by norm_num⟩ <;>
  simp [alphaAfter, loopCells, loopState, stepRound, connectAll,
    connectLoop, pyListGet, cellConnect, initState, initCell, readAll,
    readLoop, readCellAt, readFifoLoop, readPredLoop, bput, pyconj,
    computeAll, computeCells, computeFlag, cellCompute, fftAbsOf,
    complex_mult, pymul, rFFT, getTwiddle, pySlice, pyBound, fftshift,
    zeros8, shiftAll, shiftCellsLoop, shiftLoop, eIsOk, Except.map,
    mergeLoop, merge2Loop, List.range_succ, max_def]

/-- Claim C2, amended: the max-hold property holds WITHIN one compute
call, not across iterations.  In every successful non-terminal merge with
`iterations ≠ 0`, the new `alpha[i]` (for each bin `i` below half the
`fft_abs` length — 8 bins in the nominal configuration) equals
`max(previous alpha_top[i], current bottom[i], predecessorAlpha[i])`, and
in particular dominates each of the three; but because `alpha` is re-seeded
from the raw `alpha_top` snapshot rather than from the previous merged
`alpha`, the merged value is NOT non-decreasing from one iteration to the
next (see the counterexample). -/
theorem c2_amended (cell : Cell) (prev : List ℝ) (iterations cyc : ℕ)
    (hit : iterations ≠ 0)
    (hok : eIsOk (cellCompute cell false prev iterations cyc) = true)
    (i : ℕ) (hi : i < (faOf cell cyc).length / 2) :
    ∃ c' cyc', cellCompute cell false prev iterations cyc = .ok (c', cyc')
      ∧ c'.alpha.getD i 0
          = max (max (cell.alpha_top.getD i 0)
                     (((faOf cell cyc).take
                         ((faOf cell cyc).length / 2)).getD i 0))
                (prev.getD i 0)
      ∧ cell.alpha_top.getD i 0 ≤ c'.alpha.getD i 0
      ∧ prev.getD i 0 ≤ c'.alpha.getD i 0 := by
  rcases hfa : fftAbsOf cell cyc with e | p
  · rw [cellCompute, hfa] at hok
    exact absurd hok (by simp [eIsOk])
  · obtain ⟨fa, cyc1⟩ := p
    have hfa2 : faOf cell cyc = fa := by rw [faOf, hfa]
    rw [cellCompute, hfa] at hok ⊢
    dsimp only at hok ⊢
    rw [if_neg hit] at hok ⊢
    simp only [eq_self_iff_true, if_true] at hok ⊢
    rcases hm : mergeLoop (fa.length / 2) cell.alpha_top
        (fa.take (fa.length / 2)) prev with e | a'
    · rw [hm] at hok
      exact absurd hok (by simp [eIsOk])
    · dsimp only at hok ⊢
      obtain ⟨l0, hge, hlt⟩ :=
        mergeLoop_spec (fa.length / 2) cell.alpha_top
          (fa.take (fa.length / 2)) prev a' hm
      rw [hfa2] at hi
      have heq := hlt i hi
      refine ⟨_, _, rfl, ?_, ?_, ?_⟩
      · rw [hfa2]
        exact heq
      · rw [heq]
        exact le_max_of_le_left (le_max_left _ _)
      · rw [heq]
        exact le_max_right _ _

/-- A concrete cell state for exercising the non-terminal merge. -/
noncomputable def c2cell : Cell :=
  { initCell 2 with data1 := [0, 0], data2 := [0, 0],
                    alpha_top := [(5 : ℝ)] }

/-- Witness for `c2_amended` on a concrete cell state. -/
theorem c2_amended_witness :
    (1 : ℕ) ≠ 0
      ∧ eIsOk (cellCompute c2cell false [(2 : ℝ)] 1 0) = true
      ∧ 0 < (faOf c2cell 0).length / 2
      ∧ ∃ c' cyc',
          cellCompute c2cell false [(2 : ℝ)] 1 0 = .ok (c', cyc')
          ∧ c'.alpha.getD 0 0
              = max (max (c2cell.alpha_top.getD 0 0)
                         (((faOf c2cell 0).take
                             ((faOf c2cell 0).length / 2)).getD 0 0))
                    ([(2 : ℝ)].getD 0 0)
          ∧ c2cell.alpha_top.getD 0 0 ≤ c'.alpha.getD 0 0
          ∧ [(2 : ℝ)].getD 0 0 ≤ c'.alpha.getD 0 0 :=
  ⟨by decide,
    by
      simp [c2cell, cellCompute, fftAbsOf, complex_mult, pymul, rFFT,
        getTwiddle, pySlice, pyBound, fftshift, initCell, mergeLoop, eIsOk,
        max_def, List.range_succ],
    by
      simp [c2cell, faOf, fftAbsOf, complex_mult, pymul, rFFT, getTwiddle,
        pySlice, pyBound, fftshift, initCell, List.range_succ],
    c2_amended c2cell [(2 : ℝ)] 1 0 (by decide)
      (by
        simp [c2cell, cellCompute, fftAbsOf, complex_mult, pymul, rFFT,
          getTwiddle, pySlice, pyBound, fftshift, initCell, mergeLoop,
          eIsOk, max_def, List.range_succ])
      0
      (by
        simp [c2cell, faOf, fftAbsOf, complex_mult, pymul, rFFT, getTwiddle,
          pySlice, pyBound, fftshift, initCell, List.range_succ])⟩

/-! ### Claim C3: the pipeline FFT agrees with the reference DFT

The standard decimation-in-time argument, carried out over the exact
embedding: splitting the DFT sum over even and odd indices and using the
`2π`-periodicity of `exp` turns the reference DFT of length `2m` into
exactly the `F[k] = X[k % m] + W[k]·Y[k % m]` combine step of `rFFT`. -/

theorem DFT_getD (y : List ℂ) (r : ℕ) (hr : r < y.length) :
    (DFT y).getD r 0
      = ∑ j ∈ Finset.range y.length,
          Complex.exp ((-2) * (Real.pi : ℂ) * Complex.I * r * j / y.length)
            * y.getD j 0 := by
  rw [DFT, getD_range_map _ _ _ _ hr]

theorem exp_qpart (q j : ℕ) :
    Complex.exp ((-2) * (Real.pi : ℂ) * Complex.I * q * j) = 1 := by
  have h : (-2) * (Real.pi : ℂ) * Complex.I * q * j
      = ((-(q * j : ℤ) : ℤ) : ℂ) * (2 * (Real.pi : ℂ) * Complex.I) := by
    push_cast
    ring
  rw [h, Complex.exp_int_mul_two_pi_mul_I]

theorem exp_mod (m k j : ℕ) (hm : 0 < m) :
    Complex.exp ((-2) * (Real.pi : ℂ) * Complex.I * ((k % m : ℕ) : ℂ)
        * j / m)
      = Complex.exp ((-2) * (Real.pi : ℂ) * Complex.I * k * j / m) := by
  have hmc : ((m : ℕ) : ℂ) ≠ 0 := Nat.cast_ne_zero.mpr (by omega)
  have hq : (k : ℂ) = (m : ℂ) * ((k / m : ℕ) : ℂ) + ((k % m : ℕ) : ℂ) := by
    exact_mod_cast (Nat.div_add_mod k m).symm
  have hsplit : (-2) * (Real.pi : ℂ) * Complex.I * (k : ℂ) * j / m
      = ((-2) * (Real.pi : ℂ) * Complex.I * ((k / m : ℕ) : ℂ) * j)
        + ((-2) * (Real.pi : ℂ) * Complex.I * ((k % m : ℕ) : ℂ) * j / m) := by
    rw [hq]
    field_simp
    ring
  calc Complex.exp ((-2) * (Real.pi : ℂ) * Complex.I * ((k % m : ℕ) : ℂ)
          * j / m)
      = Complex.exp ((-2) * (Real.pi : ℂ) * Complex.I * ((k / m : ℕ) : ℂ)
            * j)
          * Complex.exp ((-2) * (Real.pi : ℂ) * Complex.I
              * ((k % m : ℕ) : ℂ) * j / m) := by
        rw [exp_qpart, one_mul]
    _ = Complex.exp (((-2) * (Real.pi : ℂ) * Complex.I * ((k / m : ℕ) : ℂ)
            * j)
          + ((-2) * (Real.pi : ℂ) * Complex.I * ((k % m : ℕ) : ℂ)
              * j / m)) := (Complex.exp_add _ _).symm
    _ = Complex.exp ((-2) * (Real.pi : ℂ) * Complex.I * k * j / m) :=
        congrArg Complex.exp hsplit.symm

theorem exp_even (m k j : ℕ) (hm : 0 < m) :
    Complex.exp ((-2) * (Real.pi : ℂ) * Complex.I * k * ((2 * j : ℕ) : ℂ)
        / ((2 * m : ℕ) : ℂ))
      = Complex.exp ((-2) * (Real.pi : ℂ) * Complex.I * k * j / m) := by
  have hmc : ((m : ℕ) : ℂ) ≠ 0 := Nat.cast_ne_zero.mpr (by omega)
  apply congrArg
  push_cast
  field_simp
  ring

theorem exp_odd (m k j : ℕ) (hm : 0 < m) :
    Complex.exp ((-2) * (Real.pi : ℂ) * Complex.I * k
        * ((2 * j + 1 : ℕ) : ℂ) / ((2 * m : ℕ) : ℂ))
      = Complex.exp ((-2) * (Real.pi : ℂ) * Complex.I * k
            / ((2 * m : ℕ) : ℂ))
          * Complex.exp ((-2) * (Real.pi : ℂ) * Complex.I * k * j / m) := by
  have hmc : ((m : ℕ) : ℂ) ≠ 0 := Nat.cast_ne_zero.mpr (by omega)
  rw [← Complex.exp_add]
  apply congrArg
  push_cast
  field_simp
  ring

theorem sum_range_even_odd {M : Type} [AddCommMonoid M] (f : ℕ → M) :
    ∀ m : ℕ, ∑ j ∈ Finset.range (2 * m), f j
      = (∑ j ∈ Finset.range m, f (2 * j))
        + ∑ j ∈ Finset.range m, f (2 * j + 1) := by
  intro m
  induction m with
  | zero => simp
  | succ m ih =>
    have h2 : 2 * (m + 1) = (2 * m + 1) + 1 := by ring
    rw [h2, Finset.sum_range_succ, Finset.sum_range_succ, ih,
      Finset.sum_range_succ, Finset.sum_range_succ]
    abel

/-- The pointwise form of the decimation-in-time combine step: for a list
of even length `2m` and output index `k < 2m`, the `rFFT` combine of the
two half-size DFTs equals the full DFT sum at `k`. -/
theorem combine_eq (x : List ℂ) (m : ℕ) (hm0 : 0 < m)
    (hx : x.length = 2 * m) (k : ℕ) (hk : k < x.length) :
    (DFT ((List.range m).map fun j => x.getD (2 * j) 0)).getD (k % m) 0
      + (getTwiddle x.length).getD k 0
        * (DFT ((List.range m).map fun j =>
              x.getD (2 * j + 1) 0)).getD (k % m) 0
    = ∑ j ∈ Finset.range x.length,
        Complex.exp ((-2) * (Real.pi : ℂ) * Complex.I * k * j / x.length)
          * x.getD j 0 := by
  have hkm : k % m < m := Nat.mod_lt k hm0
  have heven :
      (DFT ((List.range m).map fun j => x.getD (2 * j) 0)).getD (k % m) 0
        = ∑ j ∈ Finset.range m,
            Complex.exp ((-2) * (Real.pi : ℂ) * Complex.I * k * j / m)
              * x.getD (2 * j) 0 := by
    rw [DFT_getD _ _ (by simpa using hkm)]
    simp only [List.length_map, List.length_range]
    exact Finset.sum_congr rfl (fun j hj => by
      rw [getD_range_map _ _ _ _ (Finset.mem_range.mp hj),
        exp_mod m k j hm0])
  have hodd :
      (DFT ((List.range m).map fun j =>
          x.getD (2 * j + 1) 0)).getD (k % m) 0
        = ∑ j ∈ Finset.range m,
            Complex.exp ((-2) * (Real.pi : ℂ) * Complex.I * k * j / m)
              * x.getD (2 * j + 1) 0 := by
    rw [DFT_getD _ _ (by simpa using hkm)]
    simp only [List.length_map, List.length_range]
    exact Finset.sum_congr rfl (fun j hj => by
      rw [getD_range_map _ _ _ _ (Finset.mem_range.mp hj),
        exp_mod m k j hm0])
  have htw : (getTwiddle x.length).getD k 0
      = Complex.exp ((-2) * (Real.pi : ℂ) * Complex.I * k / x.length) := by
    rw [getTwiddle, getD_range_map _ _ _ _ hk]
  have he2 : ∑ j ∈ Finset.range m,
        Complex.exp ((-2) * (Real.pi : ℂ) * Complex.I * (k : ℂ)
            * ((2 * j : ℕ) : ℂ) / ((2 * m : ℕ) : ℂ)) * x.getD (2 * j) 0
      = ∑ j ∈ Finset.range m,
          Complex.exp ((-2) * (Real.pi : ℂ) * Complex.I * k * j / m)
            * x.getD (2 * j) 0 :=
    Finset.sum_congr rfl (fun j _ => by rw [exp_even m k j hm0])
  have ho2 : ∑ j ∈ Finset.range m,
        Complex.exp ((-2) * (Real.pi : ℂ) * Complex.I * (k : ℂ)
            * ((2 * j + 1 : ℕ) : ℂ) / ((2 * m : ℕ) : ℂ))
          * x.getD (2 * j + 1) 0
      = Complex.exp ((-2) * (Real.pi : ℂ) * Complex.I * (k : ℂ)
            / ((2 * m : ℕ) : ℂ))
          * ∑ j ∈ Finset.range m,
              Complex.exp ((-2) * (Real.pi : ℂ) * Complex.I * k * j / m)
                * x.getD (2 * j + 1) 0 := by
    rw [Finset.mul_sum]
    exact Finset.sum_congr rfl
      (fun j _ => by rw [exp_odd m k j hm0, mul_assoc])
  rw [heven, hodd, htw, hx]
  rw [sum_range_even_odd
    (fun j => Complex.exp ((-2) * (Real.pi : ℂ) * Complex.I * (k : ℂ)
        * (j : ℂ) / ((2 * m : ℕ) : ℂ)) * x.getD j 0) m]
  rw [he2, ho2]

/-- `rFFT` computes the reference DFT on every power-of-two length. -/
theorem rFFT_eq_DFT_pow2 :
    ∀ (s : ℕ) (x : List ℂ), x.length = 2 ^ s →
      ∃ d, rFFT x = .ok (DFT x, d) := by
  intro s
  induction s with
  | zero =>
    intro x hx
    obtain ⟨a, rfl⟩ := List.length_eq_one.mp (by simpa using hx)
    refine ⟨0, ?_⟩
    rw [rFFT, if_neg (by simp), if_pos (by simp)]
    rw [show DFT [a] = [a] from by
      simp [DFT, List.range_succ, Complex.exp_zero]]
  | succ s ih =>
    intro x hx
    have hm0 : 0 < 2 ^ s := pow_pos (by norm_num) s
    have hn : x.length = 2 * 2 ^ s := by rw [hx]; ring
    have hm : x.length / 2 = 2 ^ s := by omega
    obtain ⟨dE, hE⟩ :=
      ih ((List.range (x.length / 2)).map fun k => x.getD (2 * k) 0)
        (by simp [hm])
    obtain ⟨dO, hO⟩ :=
      ih ((List.range (x.length / 2)).map fun k => x.getD (2 * k + 1) 0)
        (by simp [hm])
    refine ⟨dE + dO + x.length, ?_⟩
    rw [rFFT, if_neg (by omega), if_neg (by omega)]
    dsimp only
    rw [hE, hO]
    dsimp only
    have hlist :
        (List.range x.length).map (fun k =>
            (DFT ((List.range (x.length / 2)).map fun j =>
                x.getD (2 * j) 0)).getD (k % (x.length / 2)) 0
              + (getTwiddle x.length).getD k 0
                * (DFT ((List.range (x.length / 2)).map fun j =>
                    x.getD (2 * j + 1) 0)).getD (k % (x.length / 2)) 0)
          = DFT x := by
      conv_rhs => rw [DFT]
      apply List.map_congr_left
      intro k hk
      simp only [hm]
      exact combine_eq x (2 ^ s) hm0 hn k (List.mem_range.mp hk)
    rw [hlist]

/-- Claim C3: for every input whose length lies in `{2, 4, 8, 16, 32}`,
the pipeline FFT `rFFT` agrees with the reference `DFT` exactly (ideal
complex arithmetic), hence in particular elementwise within the claimed
`1e-9` absolute error. -/
theorem c3_rfft_matches_dft (x : List ℂ)
    (h : x.length ∈ ([2, 4, 8, 16, 32] : List ℕ)) :
    rFFTv x = DFT x
      ∧ ∀ i : ℕ,
          Complex.abs ((rFFTv x).getD i 0 - (DFT x).getD i 0)
            ≤ 1 / 1000000000 := by
  have hpow : ∃ s : ℕ, x.length = 2 ^ s := by
    have h' : x.length = 2 ∨ x.length = 4 ∨ x.length = 8 ∨ x.length = 16
        ∨ x.length = 32 := by simpa using h
    rcases h' with h | h | h | h | h
    exacts [⟨1, by rw [h]; norm_num⟩, ⟨2, by rw [h]; norm_num⟩,
            ⟨3, by rw [h]; norm_num⟩, ⟨4, by rw [h]; norm_num⟩,
            ⟨5, by rw [h]; norm_num⟩]
  obtain ⟨s, hs⟩ := hpow
  obtain ⟨d, hd⟩ := rFFT_eq_DFT_pow2 s x hs
  have hv : rFFTv x = DFT x := by rw [rFFTv, hd]
  refine ⟨hv, fun i => ?_⟩
  rw [hv, sub_self]
  rw [map_zero]
  norm_num

/-- Witness for `c3_rfft_matches_dft` at the concrete length-2 input
`[1, i]`. -/
theorem c3_rfft_matches_dft_witness :
    ([(1 : ℂ), Complex.I].length ∈ ([2, 4, 8, 16, 32] : List ℕ))
      ∧ (rFFTv [(1 : ℂ), Complex.I] = DFT [(1 : ℂ), Complex.I]
          ∧ ∀ i : ℕ,
              Complex.abs ((rFFTv [(1 : ℂ), Complex.I]).getD i 0
                  - (DFT [(1 : ℂ), Complex.I]).getD i 0)
                ≤ 1 / 1000000000) :=
  ⟨by decide, c3_rfft_matches_dft [(1 : ℂ), Complex.I] (by decide)⟩

/-! ### Claim C10, amended: Alpha Vectors in the nominal configuration

With register capacity `cell_size ≥ 16` (so the central crop really yields
16 bins) and `total_iterations ≥ 2` (so every cell has passed through a
merge branch and assigned its `alpha`), every Alpha Vector of a normally
returned run result has exactly 8 entries, all nonnegative. -/

/-- A well-formed Alpha Vector: exactly 8 nonnegative reals. -/
def goodVec (v : List ℝ) : Prop := v.length = 8 ∧ ∀ r ∈ v, 0 ≤ r

/-- An `alpha` field is either still unassigned (`[]`) or well-formed. -/
def okAlpha (v : List ℝ) : Prop := v = [] ∨ goodVec v

theorem getD_mem_of_lt {α : Type} (l : List α) (i : ℕ) (d : α)
    (h : i < l.length) : l.getD i d ∈ l := by
  rw [List.getD_eq_getElem l d h]
  exact List.getElem_mem h

theorem goodVec_zeros8 : goodVec zeros8 := by
  refine ⟨by simp [zeros8], fun r hr => ?_⟩
  have h0 : r = 0 := by simpa [zeros8, List.mem_replicate] using hr
  simp [h0]

theorem fftshift_length {α : Type} (l : List α) :
    (fftshift l).length = l.length := by
  simp [fftshift]

theorem rFFTv_nonneg_len_16 {x : List ℂ} {fr : List ℂ} {dc : ℕ}
    (hr : rFFT x = .ok (fr, dc)) (hx : 16 ≤ x.length) :
    (pySlice (fftshift fr) (((fr.length / 2 : ℕ) : ℤ) - 8)
        (((fr.length / 2 : ℕ) : ℤ) + 8)).length = 16 := by
  have hl : fr.length = x.length := rFFT_ok_length x fr dc hr
  have h16 : 16 ≤ fr.length := by omega
  rw [pySlice, fftshift_length]
  have ha : pyBound fr.length (((fr.length / 2 : ℕ) : ℤ) - 8)
      = fr.length / 2 - 8 := by
    rw [pyBound, if_neg (by push_cast; omega)]
    have : ((fr.length / 2 : ℕ) : ℤ) - 8 = ((fr.length / 2 - 8 : ℕ) : ℤ) := by
      push_cast
      omega
    rw [this, Int.toNat_natCast]
    omega
  have hb : pyBound fr.length (((fr.length / 2 : ℕ) : ℤ) + 8)
      = fr.length / 2 + 8 := by
    rw [pyBound, if_neg (by push_cast; omega)]
    have : ((fr.length / 2 : ℕ) : ℤ) + 8 = ((fr.length / 2 + 8 : ℕ) : ℤ) := by
      push_cast
      ring
    rw [this, Int.toNat_natCast]
    omega
  rw [ha, hb]
  simp only [List.length_take, List.length_drop, fftshift_length]
  omega

/-- The `fft_abs` sequence of a compute call has exactly 16 nonnegative
entries whenever the raw register holds at least 16 samples. -/
theorem fftAbsOf_good {c : Cell} {cyc : ℕ} {fa : List ℝ} {cyc1 : ℕ}
    (h : fftAbsOf c cyc = .ok (fa, cyc1)) (hlen : 16 ≤ c.data1.length) :
    fa.length = 16 ∧ ∀ r ∈ fa, 0 ≤ r := by
  rw [fftAbsOf] at h
  rcases hcm : complex_mult c.data1 c.data2 cyc with e | p
  · rw [hcm] at h
    cases h
  · obtain ⟨cm, cycA⟩ := p
    rw [hcm] at h
    dsimp only at h
    rcases hfr : rFFT cm with e | q
    · rw [hfr] at h
      cases h
    · obtain ⟨fr, dc⟩ := q
      rw [hfr] at h
      dsimp only at h
      rcases h with ⟨⟩
      have hcmlen : cm.length = c.data1.length := by
        rw [complex_mult] at hcm
        by_cases hxy : c.data1.length ≤ c.data2.length
        · rw [if_pos hxy] at hcm
          cases hcm
          simp
        · rw [if_neg hxy] at hcm
          cases hcm
      constructor
      · rw [List.length_map]
        exact rFFTv_nonneg_len_16 hfr (by omega)
      · intro r hrm
        obtain ⟨z, _, rfl⟩ := List.mem_map.mp hrm
        exact AbsoluteValue.nonneg Complex.abs z

theorem merge2Loop_spec :
    ∀ (m : ℕ) (a p a' : List ℝ), merge2Loop m a p = .ok a' →
      a'.length = a.length
        ∧ (∀ i, m ≤ i → a'.getD i 0 = a.getD i 0)
        ∧ (∀ i, i < m →
            a'.getD i 0 = max (a.getD i 0) (p.getD i 0)) := by
  intro m
  induction m with
  | zero =>
    intro a p a' h
    cases h
    exact ⟨rfl, fun i _ => rfl, fun i hi => absurd hi (by omega)⟩
  | succ m ih =>
    intro a p a' h
    rw [merge2Loop] at h
    rcases h0 : merge2Loop m a p with e | a0
    · rw [h0] at h
      exact absurd h (by simp)
    · rw [h0] at h
      dsimp only at h
      by_cases hc : m < a0.length ∧ m < p.length
      · rw [if_pos hc] at h
        cases h
        obtain ⟨l0, hge, hlt⟩ := ih a p a0 h0
        have hm0 : a0.getD m 0 = a.getD m 0 := hge m (le_refl m)
        refine ⟨by simp [l0], ?_, ?_⟩
        · intro i hi
          rw [getD_set_ne _ _ _ _ _ (by omega)]
          exact hge i (by omega)
        · intro i hi
          rcases Nat.lt_or_ge i m with him | him
          · rw [getD_set_ne _ _ _ _ _ (by omega)]
            exact hlt i him
          · have hieq : i = m := by omega
            subst hieq
            rw [getD_set_self _ _ _ _ hc.1, hm0]
      · rw [if_neg hc] at h
        exact absurd h (by simp)

theorem goodVec_getD_nonneg {v : List ℝ} (h : goodVec v) (i : ℕ) :
    0 ≤ v.getD i 0 := by
  by_cases hi : i < v.length
  · exact h.2 _ (getD_mem_of_lt v i 0 hi)
  · rw [List.getD_eq_default]
    omega

theorem goodVec_of_getD {v : List ℝ} (hlen : v.length = 8)
    (h : ∀ i, i < 8 → 0 ≤ v.getD i 0) : goodVec v := by
  refine ⟨hlen, fun r hr => ?_⟩
  obtain ⟨i, hi, rfl⟩ := List.mem_iff_getElem.mp hr
  rw [← List.getD_eq_getElem v 0 hi]
  exact h i (by omega)

/-- The non-terminal merge produces a well-formed alpha from a well-formed
`alpha_top`, a nonnegative bottom, and a well-formed predecessor alpha. -/
theorem mergeLoop_good {a b p a' : List ℝ}
    (h : mergeLoop 8 a b p = .ok a') (ha : goodVec a)
    (hp : ∀ i, i < 8 → 0 ≤ p.getD i 0) :
    goodVec a' := by
  obtain ⟨l0, hge, hlt⟩ := mergeLoop_spec 8 a b p a' h
  refine goodVec_of_getD (by rw [l0, ha.1]) ?_
  intro i hi
  rw [hlt i hi]
  exact le_trans (hp i hi) (le_max_right _ _)

/-- The terminal merge produces a well-formed alpha from a well-formed
`alpha_top` and a well-formed predecessor alpha. -/
theorem merge2Loop_good {a p a' : List ℝ}
    (h : merge2Loop 8 a p = .ok a') (ha : goodVec a)
    (hp : ∀ i, i < 8 → 0 ≤ p.getD i 0) :
    goodVec a' := by
  obtain ⟨l0, hge, hlt⟩ := merge2Loop_spec 8 a p a' h
  refine goodVec_of_getD (by rw [l0, ha.1]) ?_
  intro i hi
  rw [hlt i hi]
  exact le_trans (hp i hi) (le_max_right _ _)

/-! #### Per-index field preservation through the four phases -/

theorem forall_mem_iff_getD {α : Type} [Inhabited α] (l : List α)
    (P : α → Prop) :
    (∀ a ∈ l, P a) ↔ ∀ j, j < l.length → P (l.getD j default) := by
  constructor
  · intro h j hj
    exact h _ (getD_mem_of_lt l j default hj)
  · intro h a ha
    obtain ⟨j, hj, rfl⟩ := List.mem_iff_getElem.mp ha
    rw [← List.getD_eq_getElem l default hj]
    exact h j hj

theorem readFifoLoop_len :
    ∀ (count : ℕ) (q d1 d2 : List ℂ) (cap cyc : ℕ) (q' d1' d2' : List ℂ)
      (cyc' : ℕ),
      readFifoLoop count q d1 d2 cap cyc = .ok (q', d1', d2', cyc') →
      d1'.length = d1.length + count := by
  intro count
  induction count with
  | zero =>
    intro q d1 d2 cap cyc q' d1' d2' cyc' h
    cases h
    simp
  | succ cnt ih =>
    intro q d1 d2 cap cyc q' d1' d2' cyc' h
    have step : ∀ (v : ℂ) (qrest : List ℂ),
        (match bput cap d1 v with
          | Except.error e => Except.error e
          | Except.ok d1m =>
            match bput cap d2 (pyconj v) with
            | Except.error e => Except.error e
            | Except.ok d2m => readFifoLoop cnt qrest d1m d2m cap (cyc + 1))
          = Except.ok (q', d1', d2', cyc') →
        d1'.length = d1.length + (cnt + 1) := by
      intro v qrest h
      rcases hb1 : bput cap d1 v with e | d1m
      · rw [hb1] at h
        cases h
      · rw [hb1] at h
        dsimp only at h
        rcases hb2 : bput cap d2 (pyconj v) with e | d2m
        · rw [hb2] at h
          cases h
        · rw [hb2] at h
          dsimp only at h
          have hl := ih _ _ _ _ _ _ _ _ _ h
          have hb1l : d1m.length = d1.length + 1 := by
            rw [bput] at hb1
            by_cases hfull : 0 < cap ∧ cap ≤ d1.length
            · rw [if_pos hfull] at hb1
              cases hb1
            · rw [if_neg hfull] at hb1
              cases hb1
              simp
          omega
    match q with
    | [] =>
      rw [readFifoLoop] at h
      exact step 0 [] h
    | a :: t =>
      rw [readFifoLoop] at h
      exact step a t h

theorem readPredLoop_len :
    ∀ (count : ℕ) (q d1 : List ℂ) (cap cyc : ℕ) (q' d1' : List ℂ)
      (cyc' : ℕ),
      readPredLoop count q d1 cap cyc = .ok (q', d1', cyc') →
      d1'.length = d1.length + count := by
  intro count
  induction count with
  | zero =>
    intro q d1 cap cyc q' d1' cyc' h
    cases h
    simp
  | succ cnt ih =>
    intro q d1 cap cyc q' d1' cyc' h
    match q with
    | [] =>
      rw [readPredLoop] at h
      cases h
    | a :: t =>
      rw [readPredLoop] at h
      rcases hb1 : bput cap d1 a with e | d1m
      · rw [hb1] at h
        cases h
      · rw [hb1] at h
        dsimp only at h
        have hl := ih _ _ _ _ _ _ _ h
        have hb1l : d1m.length = d1.length + 1 := by
          rw [bput] at hb1
          by_cases hfull : 0 < cap ∧ cap ≤ d1.length
          · rw [if_pos hfull] at hb1
            cases hb1
          · rw [if_neg hfull] at hb1
            cases hb1
            simp
        omega

theorem cellConnect_fields {c : Cell} {ci nc : ℕ}
    {inp : List (List (List ℂ))} {asz it : ℕ} {c' : Cell}
    (h : cellConnect c ci nc inp asz it = .ok c') :
    c'.alpha = c.alpha ∧ c'.alpha_top = c.alpha_top
      ∧ c'.cell_size = c.cell_size ∧ c'.data1 = c.data1 := by
  rw [cellConnect] at h
  by_cases h0 : asz = 0
  · rw [if_pos h0] at h
    cases h
  · rw [if_neg h0] at h
    by_cases hm : it % asz = 0
    · rw [if_pos hm] at h
      rcases hcl : (if 0 < ({ c with cell_index := ci } : Cell).signal_index
          then clearCell { c with cell_index := ci }
          else .ok { c with cell_index := ci }) with e | c1
      · rw [hcl] at h
        cases h
      · rw [hcl] at h
        dsimp only at h
        have hc1 : c1.alpha = c.alpha ∧ c1.alpha_top = c.alpha_top
            ∧ c1.cell_size = c.cell_size ∧ c1.data1 = c.data1 := by
          by_cases hsig : 0 < ({ c with cell_index := ci } : Cell).signal_index
          · rw [if_pos hsig, clearCell] at hcl
            rcases hclo : clearLoop ({ c with cell_index := ci } :
                Cell).cell_size ({ c with cell_index := ci } :
                Cell).cell_shift ({ c with cell_index := ci } : Cell).data2
                with e | p
            · rw [hclo] at hcl
              cases hcl
            · obtain ⟨s', d2'⟩ := p
              rw [hclo] at hcl
              dsimp only at hcl
              cases hcl
              exact ⟨rfl, rfl, rfl, rfl⟩
          · rw [if_neg hsig] at hcl
            cases hcl
            exact ⟨rfl, rfl, rfl, rfl⟩
        by_cases hin : c1.signal_index < inp.length
            ∧ ci < (inp.getD c1.signal_index []).length
        · rw [if_pos hin] at h
          cases h
          exact hc1
        · rw [if_neg hin] at h
          cases h
    · rw [if_neg hm] at h
      by_cases hnc : nc = 0
      · rw [if_pos hnc] at h
        cases h
      · rw [if_neg hnc] at h
        cases h
        exact ⟨rfl, rfl, rfl, rfl⟩

theorem connectLoop_fields :
    ∀ (l : List ℕ) (st st' : ArrState), connectLoop l st = .ok st' →
      ∀ j, (st'.cells.getD j default).alpha
              = (st.cells.getD j default).alpha
        ∧ (st'.cells.getD j default).alpha_top
            = (st.cells.getD j default).alpha_top
        ∧ (st'.cells.getD j default).cell_size
            = (st.cells.getD j default).cell_size
        ∧ (st'.cells.getD j default).data1
            = (st.cells.getD j default).data1 := by
  intro l
  induction l with
  | nil =>
    intro st st' h j
    cases h
    exact ⟨rfl, rfl, rfl, rfl⟩
  | cons i rest ih =>
    intro st st' h j
    rw [connectLoop] at h
    rcases hg : pyListGet st.cells i with e | c
    · rw [hg] at h
      exact absurd h (by simp)
    · rw [hg] at h
      dsimp only at h
      rcases hc : cellConnect c i st.cells.length st.input st.array_size
          st.iterations with e | c'
      · rw [hc] at h
        exact absurd h (by simp)
      · rw [hc] at h
        dsimp only at h
        have hrest := ih _ _ h j
        have hset : ((st.cells.set i c').getD j default).alpha
              = (st.cells.getD j default).alpha
            ∧ ((st.cells.set i c').getD j default).alpha_top
                = (st.cells.getD j default).alpha_top
            ∧ ((st.cells.set i c').getD j default).cell_size
                = (st.cells.getD j default).cell_size
            ∧ ((st.cells.set i c').getD j default).data1
                = (st.cells.getD j default).data1 := by
          by_cases hij : i = j
          · subst hij
            have hbound : i < st.cells.length := by
              rw [pyListGet] at hg
              rcases hq : st.cells.get? i with _ | a
              · rw [hq] at hg
                cases hg
              · exact (List.get?_eq_some.mp hq).1
            have hci : st.cells.getD i default = c :=
              getD_of_getQ _ (pyListGet_ok hg)
            rw [getD_set_self _ _ _ _ hbound, hci]
            exact cellConnect_fields hc
          · rw [getD_set_ne _ _ _ _ _ hij]
            exact ⟨rfl, rfl, rfl, rfl⟩
        refine ⟨?_, ?_, ?_, ?_⟩
        · rw [hrest.1, hset.1]
        · rw [hrest.2.1, hset.2.1]
        · rw [hrest.2.2.1, hset.2.2.1]
        · rw [hrest.2.2.2, hset.2.2.2]

theorem readCellAt_fields (st : ArrState) (i : ℕ) (st' : ArrState)
    (h : readCellAt st i = .ok st') :
    (∀ j, (st'.cells.getD j default).alpha
            = (st.cells.getD j default).alpha
        ∧ (st'.cells.getD j default).alpha_top
            = (st.cells.getD j default).alpha_top
        ∧ (st'.cells.getD j default).cell_size
            = (st.cells.getD j default).cell_size)
      ∧ (∀ j, j ≠ i → (st'.cells.getD j default).data1
            = (st.cells.getD j default).data1)
      ∧ (st'.cells.getD i default).data1.length
          = (st.cells.getD i default).data1.length
            + (st.cells.getD i default).cell_size := by
  rw [readCellAt] at h
  rcases hg : pyListGet st.cells i with e | c
  · rw [hg] at h
    exact absurd h (by simp)
  · rw [hg] at h
    dsimp only at h
    have hbound : i < st.cells.length := by
      rw [pyListGet] at hg
      rcases hq : st.cells.get? i with _ | a
      · rw [hq] at hg
        cases hg
      · exact (List.get?_eq_some.mp hq).1
    have hci : st.cells.getD i default = c := getD_of_getQ _ (pyListGet_ok hg)
    rcases hin : c.cell_input with _ | ⟨sig, idx⟩ | jp
    · rw [hin] at h
      exact absurd h (by simp)
    · rw [hin] at h
      dsimp only at h
      rcases hr : readFifoLoop c.cell_size
          ((st.input.getD sig []).getD idx []) c.data1 c.data2 c.cell_size
          st.cycle with e | q4
      · rw [hr] at h
        exact absurd h (by simp)
      · obtain ⟨q', d1', d2', cyc'⟩ := q4
        rw [hr] at h
        dsimp only at h
        cases h
        have hlen := readFifoLoop_len _ _ _ _ _ _ _ _ _ _ hr
        refine ⟨fun j => ?_, fun j hji => ?_, ?_⟩
        · by_cases hij : i = j
          · subst hij
            rw [getD_set_self _ _ _ _ hbound, hci]
            exact ⟨rfl, rfl, rfl⟩
          · rw [getD_set_ne _ _ _ _ _ hij]
            exact ⟨rfl, rfl, rfl⟩
        · rw [getD_set_ne _ _ _ _ _ (fun hc => hji hc.symm)]
        · rw [getD_set_self _ _ _ _ hbound, hci]
          exact hlen
    · rw [hin] at h
      dsimp only at h
      rcases hj : pyListGet st.cells jp with e | cj
      · rw [hj] at h
        exact absurd h (by simp)
      · rw [hj] at h
        dsimp only at h
        rcases hr : readPredLoop c.cell_size cj.cell_shift c.data1
            c.cell_size st.cycle with e | q3
        · rw [hr] at h
          exact absurd h (by simp)
        · obtain ⟨q', d1', cyc'⟩ := q3
          rw [hr] at h
          dsimp only at h
          rcases h2 : pyListGet
              ((st.cells.set jp { cj with cell_shift := q' })) i
              with e | c2
          · rw [h2] at h
            exact absurd h (by simp)
          · rw [h2] at h
            dsimp only at h
            cases h
            have hlen := readPredLoop_len _ _ _ _ _ _ _ _ hr
            have hbound2 : i < (st.cells.set jp
                { cj with cell_shift := q' }).length := by
              simpa using hbound
            have hc2 : (st.cells.set jp
                { cj with cell_shift := q' }).getD i default = c2 :=
              getD_of_getQ _ (pyListGet_ok h2)
            have hcj : st.cells.getD jp default = cj :=
              getD_of_getQ _ (pyListGet_ok hj)
            have hc2fields : c2.alpha = c.alpha ∧ c2.alpha_top = c.alpha_top
                ∧ c2.cell_size = c.cell_size ∧ c2.data1 = c.data1 := by
              by_cases hpi : jp = i
              · subst hpi
                rw [getD_set_self _ _ _ _ hbound] at hc2
                rw [hcj] at hci
                rw [← hc2, ← hci]
                exact ⟨rfl, rfl, rfl, rfl⟩
              · rw [getD_set_ne _ _ _ _ _ hpi, hci] at hc2
                rw [← hc2]
                exact ⟨rfl, rfl, rfl, rfl⟩
            refine ⟨fun j => ?_, fun j hji => ?_, ?_⟩
            · by_cases hij : i = j
              · subst hij
                rw [getD_set_self _ _ _ _ hbound2, hci]
                exact ⟨hc2fields.1, hc2fields.2.1, hc2fields.2.2.1⟩
              · rw [getD_set_ne _ _ _ _ _ hij]
                by_cases hpj : jp = j
                · subst hpj
                  rw [getD_set_self _ _ _ _ (by
                      rw [pyListGet] at hj
                      rcases hq : st.cells.get? jp with _ | a
                      · rw [hq] at hj
                        cases hj
                      · exact (List.get?_eq_some.mp hq).1), hcj]
                  exact ⟨rfl, rfl, rfl⟩
                · rw [getD_set_ne _ _ _ _ _ hpj]
                  exact ⟨rfl, rfl, rfl⟩
            · rw [getD_set_ne _ _ _ _ _ (fun hc => hji hc.symm)]
              by_cases hpj : jp = j
              · subst hpj
                rw [getD_set_self _ _ _ _ (by
                    rw [pyListGet] at hj
                    rcases hq : st.cells.get? jp with _ | a
                    · rw [hq] at hj
                      cases hj
                    · exact (List.get?_eq_some.mp hq).1), hcj]
              · rw [getD_set_ne _ _ _ _ _ hpj]
            · rw [getD_set_self _ _ _ _ hbound2, hci]
              rw [hc2fields.2.2.2] at *
              rw [hlen]

theorem readLoop_fields :
    ∀ (l : List ℕ) (st st' : ArrState), readLoop l st = .ok st' →
      (∀ j, (st'.cells.getD j default).alpha
              = (st.cells.getD j default).alpha
          ∧ (st'.cells.getD j default).alpha_top
              = (st.cells.getD j default).alpha_top
          ∧ (st'.cells.getD j default).cell_size
              = (st.cells.getD j default).cell_size)
        ∧ (∀ j, (st.cells.getD j default).data1.length
              ≤ (st'.cells.getD j default).data1.length)
        ∧ (∀ j, j ∈ l → (st.cells.getD j default).cell_size
              ≤ (st'.cells.getD j default).data1.length) := by
  intro l
  induction l with
  | nil =>
    intro st st' h
    cases h
    exact ⟨fun j => ⟨rfl, rfl, rfl⟩, fun j => le_refl _,
           fun j hj => absurd hj (by simp)⟩
  | cons i rest ih =>
    intro st st' h
    rw [readLoop] at h
    rcases hg : readCellAt st i with e | stm
    · rw [hg] at h
      exact absurd h (by simp)
    · rw [hg] at h
      dsimp only at h
      obtain ⟨hA, hB, hC⟩ := ih _ _ h
      obtain ⟨gA, gB, gC⟩ := readCellAt_fields st i stm hg
      refine ⟨fun j => ?_, fun j => ?_, fun j hj => ?_⟩
      · obtain ⟨a1, a2, a3⟩ := hA j
        obtain ⟨b1, b2, b3⟩ := gA j
        exact ⟨a1.trans b1, a2.trans b2, a3.trans b3⟩
      · by_cases hij : j = i
        · subst hij
          have h1 : (st.cells.getD j default).data1.length
              ≤ (stm.cells.getD j default).data1.length := by
            rw [gC]
            omega
          exact le_trans h1 (hB j)
        · rw [← gB j hij]
          exact hB j
      · rcases List.mem_cons.mp hj with hji | hjr
        · subst hji
          have h1 : (st.cells.getD j default).cell_size
              ≤ (stm.cells.getD j default).data1.length := by
            rw [gC]
            omega
          exact le_trans h1 (hB j)
        · have := hC j hjr
          rw [(gA j).2.2] at this
          exact this

theorem shiftCellsLoop_fields :
    ∀ (l : List ℕ) (st st' : ArrState), shiftCellsLoop l st = .ok st' →
      ∀ j, (st'.cells.getD j default).alpha
              = (st.cells.getD j default).alpha
        ∧ (st'.cells.getD j default).alpha_top
            = (st.cells.getD j default).alpha_top
        ∧ (st'.cells.getD j default).cell_size
            = (st.cells.getD j default).cell_size := by
  intro l
  induction l with
  | nil =>
    intro st st' h j
    cases h
    exact ⟨rfl, rfl, rfl⟩
  | cons i rest ih =>
    intro st st' h j
    rw [shiftCellsLoop] at h
    rcases hg : pyListGet st.cells i with e | c
    · rw [hg] at h
      exact absurd h (by simp)
    · rw [hg] at h
      dsimp only at h
      rcases hs : shiftLoop c.cell_size c.data1 c.cell_shift st.cycle
          with e | p
      · rw [hs] at h
        exact absurd h (by simp)
      · obtain ⟨d1', s', cyc'⟩ := p
        rw [hs] at h
        dsimp only at h
        obtain ⟨a1, a2, a3⟩ := ih _ _ h j
        have hbound : i < st.cells.length := by
          rw [pyListGet] at hg
          rcases hq : st.cells.get? i with _ | a
          · rw [hq] at hg
            cases hg
          · exact (List.get?_eq_some.mp hq).1
        have hci : st.cells.getD i default = c :=
          getD_of_getQ _ (pyListGet_ok hg)
        by_cases hij : i = j
        · subst hij
          rw [getD_set_self _ _ _ _ hbound] at a1 a2 a3
          rw [hci]
          exact ⟨a1, a2, a3⟩
        · rw [getD_set_ne _ _ _ _ _ hij] at a1 a2 a3
          exact ⟨a1, a2, a3⟩

theorem mergeLoop_ok_lengths :
    ∀ (m : ℕ) (a b p a' : List ℝ), mergeLoop m a b p = .ok a' →
      m ≤ a.length ∧ m ≤ b.length ∧ m ≤ p.length := by
  intro m
  cases m with
  | zero => intro a b p a' _; omega
  | succ m =>
    intro a b p a' h
    rw [mergeLoop] at h
    rcases h0 : mergeLoop m a b p with e | a0
    · rw [h0] at h
      exact absurd h (by simp)
    · rw [h0] at h
      dsimp only at h
      by_cases hc : m < a0.length ∧ m < b.length ∧ m < p.length
      · obtain ⟨l0, _, _⟩ := mergeLoop_spec m a b p a0 h0
        omega
      · rw [if_neg hc] at h
        exact absurd h (by simp)

theorem merge2Loop_ok_lengths :
    ∀ (m : ℕ) (a p a' : List ℝ), merge2Loop m a p = .ok a' →
      m ≤ a.length ∧ m ≤ p.length := by
  intro m
  cases m with
  | zero => intro a p a' _; omega
  | succ m =>
    intro a p a' h
    rw [merge2Loop] at h
    rcases h0 : merge2Loop m a p with e | a0
    · rw [h0] at h
      exact absurd h (by simp)
    · rw [h0] at h
      dsimp only at h
      by_cases hc : m < a0.length ∧ m < p.length
      · obtain ⟨l0, _, _⟩ := merge2Loop_spec m a p a0 h0
        omega
      · rw [if_neg hc] at h
        exact absurd h (by simp)

theorem okAlpha_goodVec {p : List ℝ} (h : okAlpha p) (hl : 8 ≤ p.length) :
    goodVec p := by
  rcases h with h | h
  · subst h
    simp at hl
  · exact h

/-- One compute call at `iterations ≠ 0` yields a well-formed `alpha` and
`alpha_top`, and leaves `cell_size` and the raw register untouched. -/
theorem cellCompute_good {c : Cell} {flag : Bool} {prev : List ℝ}
    {it cyc : ℕ} {c' : Cell} {cyc' : ℕ}
    (h : cellCompute c flag prev it cyc = .ok (c', cyc'))
    (hd : 16 ≤ c.data1.length) (htop : goodVec c.alpha_top)
    (hprev : okAlpha prev) (hit : it ≠ 0) :
    goodVec c'.alpha ∧ goodVec c'.alpha_top
      ∧ c'.cell_size = c.cell_size ∧ c'.data1 = c.data1 := by
  rw [cellCompute] at h
  rcases hfa : fftAbsOf c cyc with e | p
  · rw [hfa] at h
    cases h
  · obtain ⟨fa, cyc1⟩ := p
    rw [hfa] at h
    dsimp only at h
    obtain ⟨hfal, hfann⟩ := fftAbsOf_good hfa hd
    have hhalf : fa.length / 2 = 8 := by omega
    rw [if_neg hit] at h
    by_cases hflag : flag = false
    · rw [if_pos hflag] at h
      rcases hm : mergeLoop (fa.length / 2) c.alpha_top
          (fa.take (fa.length / 2)) prev with e | a'
      · rw [hm] at h
        cases h
      · rw [hm] at h
        dsimp only at h
        cases h
        rw [hhalf] at hm
        obtain ⟨_, _, hpl⟩ := mergeLoop_ok_lengths 8 _ _ _ _ hm
        have hprevg := okAlpha_goodVec hprev hpl
        refine ⟨?_, ?_, rfl, rfl⟩
        · exact mergeLoop_good hm htop
            (fun i hi => goodVec_getD_nonneg hprevg i)
        · constructor
          · rw [List.length_drop]
            omega
          · intro r hr
            exact hfann r (List.mem_of_mem_drop hr)
    · rw [if_neg hflag] at h
      rcases hm : merge2Loop (fa.length / 2) c.alpha_top prev with e | t'
      · rw [hm] at h
        cases h
      · rw [hm] at h
        dsimp only at h
        cases h
        rw [hhalf] at hm
        obtain ⟨_, hpl⟩ := merge2Loop_ok_lengths 8 _ _ _ hm
        have hprevg := okAlpha_goodVec hprev hpl
        have hgood : goodVec t' :=
          merge2Loop_good hm htop (fun i hi => goodVec_getD_nonneg hprevg i)
        exact ⟨hgood, hgood, rfl, rfl⟩

/-- One compute call at `iterations = 0` assigns a well-formed `alpha_top`
and leaves `alpha`, `cell_size`, and the raw register untouched. -/
theorem cellCompute_good0 {c : Cell} {flag : Bool} {prev : List ℝ}
    {it cyc : ℕ} {c' : Cell} {cyc' : ℕ}
    (h : cellCompute c flag prev it cyc = .ok (c', cyc'))
    (hd : 16 ≤ c.data1.length) (hit : it = 0) :
    goodVec c'.alpha_top ∧ c'.alpha = c.alpha
      ∧ c'.cell_size = c.cell_size ∧ c'.data1 = c.data1 := by
  rw [cellCompute] at h
  rcases hfa : fftAbsOf c cyc with e | p
  · rw [hfa] at h
    cases h
  · obtain ⟨fa, cyc1⟩ := p
    rw [hfa] at h
    dsimp only at h
    obtain ⟨hfal, hfann⟩ := fftAbsOf_good hfa hd
    rw [if_pos hit] at h
    cases h
    refine ⟨⟨?_, ?_⟩, rfl, rfl, rfl⟩
    · rw [List.length_drop]
      omega
    · intro r hr
      exact hfann r (List.mem_of_mem_drop hr)

theorem computeCells_good :
    ∀ (l : List ℕ) (b : Bool) (st st' : ArrState),
      computeCells l b st = .ok st' →
      st.iterations ≠ 0 →
      (∀ j, j < st.cells.length →
        16 ≤ (st.cells.getD j default).data1.length) →
      (∀ j, j < st.cells.length →
        goodVec (st.cells.getD j default).alpha_top) →
      (∀ j, j < st.cells.length →
        okAlpha (st.cells.getD j default).alpha) →
      (∀ j, j < st.cells.length →
          goodVec (st'.cells.getD j default).alpha_top)
        ∧ (∀ j, j < st.cells.length →
            okAlpha (st'.cells.getD j default).alpha)
        ∧ (∀ j, j < st.cells.length →
            (goodVec (st.cells.getD j default).alpha ∨ j ∈ l) →
            goodVec (st'.cells.getD j default).alpha)
        ∧ (∀ j, (st'.cells.getD j default).cell_size
              = (st.cells.getD j default).cell_size
            ∧ (st'.cells.getD j default).data1
              = (st.cells.getD j default).data1) := by
  intro l
  induction l with
  | nil =>
    intro b st st' h _ _ htop hok
    cases h
    exact ⟨htop, hok, fun j hj hgj => by
      rcases hgj with hg | hg
      · exact hg
      · exact absurd hg (by simp), fun j => ⟨rfl, rfl⟩⟩
  | cons i rest ih =>
    intro b st st' h hit hd htop hok
    rw [computeCells] at h
    rcases hg : pyListGet st.cells i with e | c
    · rw [hg] at h
      exact absurd h (by simp)
    · rw [hg] at h
      dsimp only at h
      rcases hp : (if i = 0 then Except.ok zeros8
          else Except.map Cell.alpha (pyListGet st.cells (i - 1)))
          with e | prev
      · rw [hp] at h
        exact absurd h (by simp)
      · rw [hp] at h
        dsimp only at h
        rcases hcc : cellCompute c (computeFlag st.num_cells i b) prev
            st.iterations st.cycle with e | pr
        · rw [hcc] at h
          exact absurd h (by simp)
        · obtain ⟨c', cyc'⟩ := pr
          rw [hcc] at h
          dsimp only at h
          have hbound : i < st.cells.length := by
            rw [pyListGet] at hg
            rcases hq : st.cells.get? i with _ | a
            · rw [hq] at hg
              cases hg
            · exact (List.get?_eq_some.mp hq).1
          have hci : st.cells.getD i default = c :=
            getD_of_getQ _ (pyListGet_ok hg)
          have hprev : okAlpha prev := by
            by_cases hi0 : i = 0
            · rw [if_pos hi0] at hp
              cases hp
              exact Or.inr goodVec_zeros8
            · rw [if_neg hi0] at hp
              rcases hgp : pyListGet st.cells (i - 1) with e | cp
              · rw [hgp] at hp
                cases hp
              · rw [hgp] at hp
                cases hp
                have hbp : i - 1 < st.cells.length := by omega
                have hcp : st.cells.getD (i - 1) default = cp :=
                  getD_of_getQ _ (pyListGet_ok hgp)
                have := hok (i - 1) hbp
                rw [hcp] at this
                exact this
          obtain ⟨ga, gt, gs, gd⟩ := cellCompute_good hcc
            (by have := hd i hbound; rw [hci] at this; exact this)
            (by have := htop i hbound; rw [hci] at this; exact this)
            hprev hit
          have hset : ∀ j, ((st.cells.set i c').getD j default)
              = if i = j then c' else st.cells.getD j default := by
            intro j
            by_cases hij : i = j
            · subst hij
              rw [if_pos rfl, getD_set_self _ _ _ _ hbound]
            · rw [if_neg hij, getD_set_ne _ _ _ _ _ hij]
          obtain ⟨iA, iB, iC, iD⟩ := ih (computeFlag st.num_cells i b)
            { st with cells := st.cells.set i c', cycle := cyc' } st' h
            hit
            (by
              intro j hj
              rw [hset j]
              by_cases hij : i = j
              · rw [if_pos hij, gd, ← hci, hij]
                exact hd j (by simpa using hj)
              · rw [if_neg hij]
                exact hd j (by simpa using hj))
            (by
              intro j hj
              rw [hset j]
              by_cases hij : i = j
              · rw [if_pos hij]
                exact gt
              · rw [if_neg hij]
                exact htop j (by simpa using hj))
            (by
              intro j hj
              rw [hset j]
              by_cases hij : i = j
              · rw [if_pos hij]
                exact Or.inr ga
              · rw [if_neg hij]
                exact hok j (by simpa using hj))
          simp only [List.length_set] at iA iB iC
          refine ⟨iA, iB, fun j hj hgj => ?_, fun j => ?_⟩
          · apply iC j hj
            rw [hset j]
            by_cases hij : i = j
            · rw [if_pos hij]
              exact Or.inl ga
            · rw [if_neg hij]
              rcases hgj with hg2 | hg2
              · exact Or.inl hg2
              · rcases List.mem_cons.mp hg2 with h3 | h3
                · exact absurd h3.symm hij
                · exact Or.inr h3
          · obtain ⟨jA, jB⟩ := iD j
            rw [jA, jB, hset j]
            by_cases hij : i = j
            · rw [if_pos hij, gs, gd, ← hci, hij]
              exact ⟨rfl, rfl⟩
            · rw [if_neg hij]
              exact ⟨rfl, rfl⟩

theorem computeCells_good0 :
    ∀ (l : List ℕ) (b : Bool) (st st' : ArrState),
      computeCells l b st = .ok st' →
      st.iterations = 0 →
      (∀ j, j < st.cells.length →
        16 ≤ (st.cells.getD j default).data1.length) →
      (∀ j, j < st.cells.length →
          (goodVec (st.cells.getD j default).alpha_top ∨ j ∈ l) →
          goodVec (st'.cells.getD j default).alpha_top)
        ∧ (∀ j, (st'.cells.getD j default).alpha
              = (st.cells.getD j default).alpha
            ∧ (st'.cells.getD j default).cell_size
              = (st.cells.getD j default).cell_size
            ∧ (st'.cells.getD j default).data1
              = (st.cells.getD j default).data1) := by
  intro l
  induction l with
  | nil =>
    intro b st st' h _ _
    cases h
    refine ⟨fun j hj hgj => ?_, fun j => ⟨rfl, rfl, rfl⟩⟩
    rcases hgj with hg | hg
    · exact hg
    · exact absurd hg (by simp)
  | cons i rest ih =>
    intro b st st' h hit hd
    rw [computeCells] at h
    rcases hg : pyListGet st.cells i with e | c
    · rw [hg] at h
      exact absurd h (by simp)
    · rw [hg] at h
      dsimp only at h
      rcases hp : (if i = 0 then Except.ok zeros8
          else Except.map Cell.alpha (pyListGet st.cells (i - 1)))
          with e | prev
      · rw [hp] at h
        exact absurd h (by simp)
      · rw [hp] at h
        dsimp only at h
        rcases hcc : cellCompute c (computeFlag st.num_cells i b) prev
            st.iterations st.cycle with e | pr
        · rw [hcc] at h
          exact absurd h (by simp)
        · obtain ⟨c', cyc'⟩ := pr
          rw [hcc] at h
          dsimp only at h
          have hbound : i < st.cells.length := by
            rw [pyListGet] at hg
            rcases hq : st.cells.get? i with _ | a
            · rw [hq] at hg
              cases hg
            · exact (List.get?_eq_some.mp hq).1
          have hci : st.cells.getD i default = c :=
            getD_of_getQ _ (pyListGet_ok hg)
          obtain ⟨gt, ga, gs, gd⟩ := cellCompute_good0 hcc
            (by have := hd i hbound; rw [hci] at this; exact this) hit
          have hset : ∀ j, ((st.cells.set i c').getD j default)
              = if i = j then c' else st.cells.getD j default := by
            intro j
            by_cases hij : i = j
            · subst hij
              rw [if_pos rfl, getD_set_self _ _ _ _ hbound]
            · rw [if_neg hij, getD_set_ne _ _ _ _ _ hij]
          obtain ⟨iA, iB⟩ := ih (computeFlag st.num_cells i b)
            { st with cells := st.cells.set i c', cycle := cyc' } st' h
            hit
            (by
              intro j hj
              rw [hset j]
              by_cases hij : i = j
              · rw [if_pos hij, gd, ← hci, hij]
                exact hd j (by simpa using hj)
              · rw [if_neg hij]
                exact hd j (by simpa using hj))
          simp only [List.length_set] at iA
          refine ⟨fun j hj hgj => ?_, fun j => ?_⟩
          · apply iA j hj
            rw [hset j]
            by_cases hij : i = j
            · rw [if_pos hij]
              exact Or.inl gt
            · rw [if_neg hij]
              rcases hgj with hg2 | hg2
              · exact Or.inl hg2
              · rcases List.mem_cons.mp hg2 with h3 | h3
                · exact absurd h3.symm hij
                · exact Or.inr h3
          · obtain ⟨jA, jB, jC⟩ := iB j
            rw [jA, jB, jC, hset j]
            by_cases hij : i = j
            · rw [if_pos hij, ga, gs, gd, ← hci, hij]
              exact ⟨rfl, rfl, rfl⟩
            · rw [if_neg hij]
              exact ⟨rfl, rfl, rfl⟩

/-- Every cell's `alpha_top` is a well-formed Alpha Vector. -/
def TopsGood (st : ArrState) : Prop :=
  ∀ j, j < st.cells.length → goodVec (st.cells.getD j default).alpha_top

/-- Every cell's `alpha` is unassigned or well-formed. -/
def AlphasOk (st : ArrState) : Prop :=
  ∀ j, j < st.cells.length → okAlpha (st.cells.getD j default).alpha

/-- Every cell's `alpha` is a well-formed Alpha Vector. -/
def AlphasGood (st : ArrState) : Prop :=
  ∀ j, j < st.cells.length → goodVec (st.cells.getD j default).alpha

/-- Every cell's register capacity is `c`. -/
def SizesEq (c : ℕ) (st : ArrState) : Prop :=
  ∀ j, j < st.cells.length → (st.cells.getD j default).cell_size = c

theorem stepRound_phases (st st' : ArrState) (h : stepRound st = .ok st') :
    ∃ s1 s2 s3a, connectAll st = .ok s1 ∧ readAll s1 = .ok s2
      ∧ computeCells (List.range s2.num_cells.toNat) false s2 = .ok s3a
      ∧ ∃ s4, shiftAll { s3a with num_cells :=
            if 0 < s3a.iterations then s3a.num_cells - 1
            else s3a.num_cells } = .ok s4
          ∧ st' = { s4 with iterations := s4.iterations + 1 } := by
  rw [stepRound] at h
  rcases h1 : connectAll st with e | s1
  · rw [h1] at h
    exact absurd h (by simp)
  · rw [h1] at h
    dsimp only at h
    rcases h2 : readAll s1 with e | s2
    · rw [h2] at h
      exact absurd h (by simp)
    · rw [h2] at h
      dsimp only at h
      rcases h3 : computeAll s2 with e | s3
      · rw [h3] at h
        exact absurd h (by simp)
      · rw [h3] at h
        dsimp only at h
        rw [computeAll] at h3
        rcases h3a : computeCells (List.range s2.num_cells.toNat) false s2
            with e | s3a
        · rw [h3a] at h3
          cases h3
        · rw [h3a] at h3
          dsimp only at h3
          cases h3
          rcases h4 : shiftAll { s3a with num_cells :=
              if 0 < s3a.iterations then s3a.num_cells - 1
              else s3a.num_cells } with e | s4
          · rw [h4] at h
            exact absurd h (by simp)
          · rw [h4] at h
            dsimp only at h
            cases h
            refine ⟨s1, s2, s3a, ?_, ?_, ?_, s4, ?_, rfl⟩
            · first
              | exact h1
              | rfl
            · first
              | exact h2
              | rfl
            · first
              | exact h3a
              | rfl
            · first
              | exact h4
              | rfl

/-- The first run iteration (`iterations = 0`): every cell computes, so
afterwards every `alpha_top` is well-formed while `alpha` fields are
untouched. -/
theorem stepRound_good0 (c : ℕ) (hc : 16 ≤ c) (st st' : ArrState)
    (h : stepRound st = .ok st') (hit : st.iterations = 0)
    (hnum : st.num_cells = (st.cells.length : ℤ))
    (hsz : SizesEq c st) (hok : AlphasOk st) :
    TopsGood st' ∧ AlphasOk st' ∧ SizesEq c st' := by
  obtain ⟨s1, s2, s3a, h1, h2, h3a, s4, h4, hst⟩ := stepRound_phases st st' h
  obtain ⟨p1, p2, p3, _, _, _⟩ := connectLoop_pres _ _ _ h1
  obtain ⟨q1, q2, q3, _, _, _⟩ := readLoop_pres _ _ _ h2
  obtain ⟨r1, r2, r3, _, _, _⟩ := computeCells_pres _ _ _ _ h3a
  obtain ⟨t1, _, _, _, _, _⟩ := shiftCellsLoop_pres _ _ _ h4
  have hC := connectLoop_fields _ _ _ h1
  obtain ⟨hRf, hRmono, hRgrow⟩ := readLoop_fields _ _ _ h2
  have hlen2 : s2.cells.length = st.cells.length := by rw [q1, p1]
  have hit2 : s2.iterations = 0 := by rw [q3, p3, hit]
  have hnum2 : s2.num_cells = (st.cells.length : ℤ) := by rw [q2, p2, hnum]
  have hsz2 : ∀ j, j < st.cells.length →
      (s2.cells.getD j default).cell_size = c := by
    intro j hj
    rw [(hRf j).2.2, (hC j).2.2.1]
    exact hsz j hj
  have hd2 : ∀ j, j < s2.cells.length →
      16 ≤ (s2.cells.getD j default).data1.length := by
    intro j hj
    rw [hlen2] at hj
    have hmem : j ∈ List.range s1.cells.length := by
      rw [p1]
      exact List.mem_range.mpr hj
    have := hRgrow j hmem
    rw [(hC j).2.2.1, hsz j hj] at this
    omega
  have hcov : ∀ j, j < s2.cells.length →
      j ∈ List.range s2.num_cells.toNat := by
    intro j hj
    rw [hlen2] at hj
    rw [hnum2]
    simpa using hj
  obtain ⟨gT, gRest⟩ := computeCells_good0 _ _ _ _ h3a hit2 hd2
  have hS := shiftCellsLoop_fields _ _ _ h4
  have hstc : st'.cells = s4.cells := by rw [hst]
  have hlen' : st'.cells.length = st.cells.length := by
    rw [hstc, t1, r1, hlen2]
  refine ⟨?_, ?_, ?_⟩
  · intro j hj
    rw [hlen'] at hj
    rw [hstc, (hS j).2.1]
    exact gT j (by rw [hlen2]; exact hj) (Or.inr (hcov j (by
      rw [hlen2]; exact hj)))
  · intro j hj
    rw [hlen'] at hj
    rw [hstc, (hS j).1, (gRest j).1, (hRf j).1, (hC j).1]
    exact hok j hj
  · intro j hj
    rw [hlen'] at hj
    rw [hstc, (hS j).2.2, (gRest j).2.1]
    exact hsz2 j hj

/-- A run iteration with `iterations ≠ 0` whose compute loop still covers
every cell (`num_cells` equals the cell count, as in iteration 1): every
cell passes through a merge branch, so afterwards every `alpha` and
`alpha_top` is well-formed. -/
theorem stepRound_good1 (c : ℕ) (hc : 16 ≤ c) (st st' : ArrState)
    (h : stepRound st = .ok st') (hit : st.iterations ≠ 0)
    (hnum : st.num_cells = (st.cells.length : ℤ))
    (hsz : SizesEq c st) (htop : TopsGood st) (hok : AlphasOk st) :
    TopsGood st' ∧ AlphasGood st' ∧ SizesEq c st' := by
  obtain ⟨s1, s2, s3a, h1, h2, h3a, s4, h4, hst⟩ := stepRound_phases st st' h
  obtain ⟨p1, p2, p3, _, _, _⟩ := connectLoop_pres _ _ _ h1
  obtain ⟨q1, q2, q3, _, _, _⟩ := readLoop_pres _ _ _ h2
  obtain ⟨r1, r2, r3, _, _, _⟩ := computeCells_pres _ _ _ _ h3a
  obtain ⟨t1, _, _, _, _, _⟩ := shiftCellsLoop_pres _ _ _ h4
  have hC := connectLoop_fields _ _ _ h1
  obtain ⟨hRf, hRmono, hRgrow⟩ := readLoop_fields _ _ _ h2
  have hlen2 : s2.cells.length = st.cells.length := by rw [q1, p1]
  have hit2 : s2.iterations ≠ 0 := by rw [q3, p3]; exact hit
  have hnum2 : s2.num_cells = (st.cells.length : ℤ) := by rw [q2, p2, hnum]
  have hd2 : ∀ j, j < s2.cells.length →
      16 ≤ (s2.cells.getD j default).data1.length := by
    intro j hj
    rw [hlen2] at hj
    have hmem : j ∈ List.range s1.cells.length := by
      rw [p1]
      exact List.mem_range.mpr hj
    have := hRgrow j hmem
    rw [(hC j).2.2.1, hsz j hj] at this
    omega
  have htop2 : ∀ j, j < s2.cells.length →
      goodVec (s2.cells.getD j default).alpha_top := by
    intro j hj
    rw [hlen2] at hj
    rw [(hRf j).2.1, (hC j).2.1]
    exact htop j hj
  have hok2 : ∀ j, j < s2.cells.length →
      okAlpha (s2.cells.getD j default).alpha := by
    intro j hj
    rw [hlen2] at hj
    rw [(hRf j).1, (hC j).1]
    exact hok j hj
  have hcov : ∀ j, j < s2.cells.length →
      j ∈ List.range s2.num_cells.toNat := by
    intro j hj
    rw [hlen2] at hj
    rw [hnum2]
    simpa using hj
  obtain ⟨gT, gOk, gMono, gPres⟩ :=
    computeCells_good _ _ _ _ h3a hit2 hd2 htop2 hok2
  have hS := shiftCellsLoop_fields _ _ _ h4
  have hstc : st'.cells = s4.cells := by rw [hst]
  have hlen' : st'.cells.length = st.cells.length := by
    rw [hstc, t1, r1, hlen2]
  refine ⟨?_, ?_, ?_⟩
  · intro j hj
    rw [hlen'] at hj
    rw [hstc, (hS j).2.1]
    exact gT j (by rw [hlen2]; exact hj)
  · intro j hj
    rw [hlen'] at hj
    rw [hstc, (hS j).1]
    exact gMono j (by rw [hlen2]; exact hj)
      (Or.inr (hcov j (by rw [hlen2]; exact hj)))
  · intro j hj
    rw [hlen'] at hj
    rw [hstc, (hS j).2.2, (gPres j).1, (hRf j).2.2, (hC j).2.2.1]
    exact hsz j hj

/-- A later run iteration preserves well-formedness of every `alpha` and
`alpha_top` (whether or not a given cell is still computed). -/
theorem stepRound_goodP (c : ℕ) (hc : 16 ≤ c) (st st' : ArrState)
    (h : stepRound st = .ok st') (hit : st.iterations ≠ 0)
    (hsz : SizesEq c st) (htop : TopsGood st) (hgood : AlphasGood st) :
    TopsGood st' ∧ AlphasGood st' ∧ SizesEq c st' := by
  obtain ⟨s1, s2, s3a, h1, h2, h3a, s4, h4, hst⟩ := stepRound_phases st st' h
  obtain ⟨p1, p2, p3, _, _, _⟩ := connectLoop_pres _ _ _ h1
  obtain ⟨q1, q2, q3, _, _, _⟩ := readLoop_pres _ _ _ h2
  obtain ⟨r1, r2, r3, _, _, _⟩ := computeCells_pres _ _ _ _ h3a
  obtain ⟨t1, _, _, _, _, _⟩ := shiftCellsLoop_pres _ _ _ h4
  have hC := connectLoop_fields _ _ _ h1
  obtain ⟨hRf, hRmono, hRgrow⟩ := readLoop_fields _ _ _ h2
  have hlen2 : s2.cells.length = st.cells.length := by rw [q1, p1]
  have hit2 : s2.iterations ≠ 0 := by rw [q3, p3]; exact hit
  have hd2 : ∀ j, j < s2.cells.length →
      16 ≤ (s2.cells.getD j default).data1.length := by
    intro j hj
    rw [hlen2] at hj
    have hmem : j ∈ List.range s1.cells.length := by
      rw [p1]
      exact List.mem_range.mpr hj
    have := hRgrow j hmem
    rw [(hC j).2.2.1, hsz j hj] at this
    omega
  have htop2 : ∀ j, j < s2.cells.length →
      goodVec (s2.cells.getD j default).alpha_top := by
    intro j hj
    rw [hlen2] at hj
    rw [(hRf j).2.1, (hC j).2.1]
    exact htop j hj
  have hgood2 : ∀ j, j < s2.cells.length →
      goodVec (s2.cells.getD j default).alpha := by
    intro j hj
    rw [hlen2] at hj
    rw [(hRf j).1, (hC j).1]
    exact hgood j hj
  obtain ⟨gT, gOk, gMono, gPres⟩ :=
    computeCells_good _ _ _ _ h3a hit2 hd2 htop2
      (fun j hj => Or.inr (hgood2 j hj))
  have hS := shiftCellsLoop_fields _ _ _ h4
  have hstc : st'.cells = s4.cells := by rw [hst]
  have hlen' : st'.cells.length = st.cells.length := by
    rw [hstc, t1, r1, hlen2]
  refine ⟨?_, ?_, ?_⟩
  · intro j hj
    rw [hlen'] at hj
    rw [hstc, (hS j).2.1]
    exact gT j (by rw [hlen2]; exact hj)
  · intro j hj
    rw [hlen'] at hj
    rw [hstc, (hS j).1]
    exact gMono j (by rw [hlen2]; exact hj)
      (Or.inl (hgood2 j (by rw [hlen2]; exact hj)))
  · intro j hj
    rw [hlen'] at hj
    rw [hstc, (hS j).2.2, (gPres j).1, (hRf j).2.2, (hC j).2.2.1]
    exact hsz j hj

theorem initState_getD (n c : ℕ) (inp : List (List (List ℂ))) (j : ℕ)
    (hj : j < n) :
    ((initState n c inp).cells.getD j default) = initCell c := by
  show (List.replicate n (initCell c)).getD j default = initCell c
  rw [List.getD_eq_getElem _ _ (by simpa using hj)]
  exact List.getElem_replicate _ _

theorem loopState_good (n c : ℕ) (hc : 16 ≤ c)
    (inp : List (List (List ℂ))) :
    ∀ T, 2 ≤ T → ∀ st, loopState n c inp T = .ok st →
      TopsGood st ∧ AlphasGood st ∧ SizesEq c st := by
  intro T
  induction T with
  | zero => intro h; omega
  | succ T ih =>
    intro hT st h
    rw [loopState] at h
    rcases hT2 : loopState n c inp T with e | stT
    · rw [hT2] at h
      exact absurd h (by simp)
    · rw [hT2] at h
      dsimp only at h
      by_cases hT1 : 2 ≤ T
      · obtain ⟨a, b, csz⟩ := ih hT1 stT hT2
        obtain ⟨_, _, _, q4, _, _⟩ := loopState_pres n c inp T stT hT2
        exact stepRound_goodP c hc stT st h (by rw [q4]; omega) csz a b
      · have hT0 : T = 1 := by omega
        subst hT0
        rw [loopState] at hT2
        rcases h0 : loopState n c inp 0 with e | st0
        · rw [h0] at hT2
          exact absurd hT2 (by simp)
        · rw [h0] at hT2
          dsimp only at hT2
          have hst0 : st0 = initState n c inp := by
            rw [loopState] at h0
            cases h0
            rfl
          subst hst0
          have hsz0 : SizesEq c (initState n c inp) := by
            intro j hj
            rw [initState_getD n c inp j (by simpa [initState] using hj)]
            rfl
          have hok0 : AlphasOk (initState n c inp) := by
            intro j hj
            rw [initState_getD n c inp j (by simpa [initState] using hj)]
            exact Or.inl rfl
          obtain ⟨top1, ok1, sz1⟩ := stepRound_good0 c hc _ _ hT2 rfl
            (by simp [initState]) hsz0 hok0
          obtain ⟨b1, b2, b3, _, _, _⟩ := stepRound_pres _ _ hT2
          refine stepRound_good1 c hc stT st h ?_ ?_ sz1 top1 ok1
          · rw [b3]
            simp [initState]
          · rw [b2, b1]
            simp [initState]

/-- Claim C10, amended: in the nominal configuration — register capacity
`cell_size ≥ 16` (so the central crop yields 16 bins) and
`total_iterations ≥ 2` (so every cell has taken a merge branch and
assigned its `alpha`) — every Alpha Vector of a normally returned run
result has exactly 8 entries, each nonnegative.  (The counterexample shows
the unconditional claim fails: with `total_iterations = 1` the result
contains the never-assigned `alpha = []`, and with `cell_size < 16` the
vectors are shorter than 8.) -/
theorem c10_amended (n c : ℕ) (inp : List (List (List ℂ))) (T : ℕ)
    (hc : 16 ≤ c) (hT : 2 ≤ T)
    (hok : eIsOk (runArray n c inp T) = true) :
    ∀ v ∈ (runResult n c inp T).getD [],
      v.length = 8 ∧ ∀ r ∈ v, 0 ≤ r := by
  rcases hL : loopState n c inp T with e | st
  · rw [runArray, hL] at hok
    exact absurd hok (by simp [eIsOk])
  · rw [runArray, hL] at hok
    dsimp only at hok
    rw [finalizeRun] at hok
    rcases hg : pyListGet st.cells 0 with e | c0
    · rw [hg] at hok
      exact absurd hok (by simp [eIsOk])
    · obtain ⟨p1, p2, p3, p4, p5, p6⟩ := loopState_pres n c inp T st hL
      obtain ⟨gtop, galpha, _⟩ := loopState_good n c hc inp T hT st hL
      have hres : (runResult n c inp T).getD []
          = (st.result ++ [c0.alpha_top])
            ++ (st.cells.drop 1).map Cell.alpha := by
        rw [runResult, runArray, hL]
        dsimp only
        rw [finalizeRun, hg]
        rfl
      rw [hres, p5]
      intro v hv
      rcases List.mem_append.mp hv with h1 | h2
      · have hv0 : v = c0.alpha_top := by simpa using h1
        subst hv0
        have hb : 0 < st.cells.length :=
          (List.get?_eq_some.mp (pyListGet_ok hg)).1
        have hc0 : st.cells.getD 0 default = c0 :=
          getD_of_getQ _ (pyListGet_ok hg)
        have hgd := gtop 0 hb
        rw [hc0] at hgd
        exact ⟨hgd.1, hgd.2⟩
      · obtain ⟨cell, hcm, rfl⟩ := List.mem_map.mp h2
        have hmem : cell ∈ st.cells := List.mem_of_mem_drop hcm
        have hgd := (forall_mem_iff_getD st.cells
          (fun a => goodVec a.alpha)).mpr galpha cell hmem
        exact ⟨hgd.1, hgd.2⟩

/-- Witness for `c10_amended` on a concrete successful run: one cell with
16 registers, two signals of 16 zero samples, two iterations. -/
theorem c10_amended_witness :
    (16 : ℕ) ≤ 16 ∧ (2 : ℕ) ≤ 2
      ∧ eIsOk (runArray 1 16 [[List.replicate 16 (0 : ℂ)],
          [List.replicate 16 (0 : ℂ)]] 2) = true
      ∧ ∀ v ∈ (runResult 1 16 [[List.replicate 16 (0 : ℂ)],
            [List.replicate 16 (0 : ℂ)]] 2).getD [],
          v.length = 8 ∧ ∀ r ∈ v, 0 ≤ r :=
  ⟨by decide, by decide,
    by
      simp [runArray, finalizeRun, loopState, stepRound, connectAll,
        connectLoop, pyListGet, cellConnect, clearCell, clearLoop,
        initState, initCell, readAll, readLoop, readCellAt, readFifoLoop,
        readPredLoop, bput, pyconj, computeAll, computeCells, computeFlag,
        cellCompute, fftAbsOf, complex_mult, pymul, rFFT, getTwiddle,
        pySlice, pyBound, fftshift, zeros8, shiftAll, shiftCellsLoop,
        shiftLoop, eIsOk, Except.map, mergeLoop, merge2Loop,
        List.range_succ, List.replicate, max_def],
    c10_amended 1 16 [[List.replicate 16 (0 : ℂ)],
        [List.replicate 16 (0 : ℂ)]] 2 (by decide) (by decide)
      (by
        simp [runArray, finalizeRun, loopState, stepRound, connectAll,
          connectLoop, pyListGet, cellConnect, clearCell, clearLoop,
          initState, initCell, readAll, readLoop, readCellAt, readFifoLoop,
          readPredLoop, bput, pyconj, computeAll, computeCells, computeFlag,
          cellCompute, fftAbsOf, complex_mult, pymul, rFFT, getTwiddle,
          pySlice, pyBound, fftshift, zeros8, shiftAll, shiftCellsLoop,
          shiftLoop, eIsOk, Except.map, mergeLoop, merge2Loop,
          List.range_succ, List.replicate, max_def])⟩

end LinearAlpha
